import Mathlib

/-!
# Multi-resolution DTW (`dtw/dtw_computation/fast_dtw.cpp`)

A shallow embedding of the functions of `fast_dtw.cpp` and the properties of
its specification.

Modelling conventions.

* C++ `int` values are integers of `ℤ`: signed overflow is undefined in C++ and
  the properties below concern the defined behaviour.  Where an `int` is
  compared with a `size_t` the conversion to 64 bit unsigned is explicit
  (`toSizeT`).
* A `double` is either a finite value of an ordered field `K` or `nan`
  (`Dbl K`).  Arithmetic on finite values is exact; rounding is not modelled.
  The single-precision casts that decide array sizes are modelled exactly
  (`toFloat`, `floatDivFloor`).
* An exception is an `Except.error`; so is an out-of-range index into a
  `std::vector`, which C++ leaves undefined (`Err.outOfRange`).
-/

set_option autoImplicit false

namespace FastDtw

/-! ## Errors -/

/-- The ways a call can fail: the two exception classes thrown by
`fast_dtw.cpp`, the `std::length_error` of a vector constructed with a negative
size, and the two undefined behaviours the code can run into (an index outside
a vector, a non-finite value cast to `int`). -/
inductive Err where
  | invalidArgument
  | logicError
  | lengthError
  | outOfRange
  | badCast
deriving DecidableEq, Repr

/-! ## Integer loops -/

/-- The values taken by the counter of a loop that starts at `lo` and makes
`n` increments. -/
def countFrom (lo : Int) : Nat → List Int
  | 0 => []
  | n + 1 => lo :: countFrom (lo + 1) n

/-- The values of `v` in `for (int v = lo; v < hi; v++)`. -/
def forRange (lo hi : Int) : List Int :=
  countFrom lo (hi - lo).toNat

/-- Conversion of an `int` to `size_t` (64 bit), as done by the usual
arithmetic conversions when an `int` meets a `size_t`. -/
def toSizeT (x : Int) : Nat :=
  (x % 2 ^ 64).toNat

/-! ## Single-precision casts -/

/-- The position of the leading bit of `n`, found in at most `fuel` halvings. -/
def leadingBit : Nat → Nat → Nat
  | 0, _ => 0
  | fuel + 1, n => if n < 2 then 0 else leadingBit fuel (n / 2) + 1

/-- The binary exponent of a positive integer below `2 ^ 64`:
`2 ^ ilog2 n ≤ n < 2 ^ (ilog2 n + 1)`. -/
def ilog2 (n : Nat) : Nat :=
  leadingBit 64 n

/-- The integer nearest to `a / b`, ties going to the even one. -/
def roundHalfEven (a b : Nat) : Nat :=
  let q := a / b
  let r := a % b
  if 2 * r < b then q
  else if b < 2 * r then q + 1
  else if q % 2 = 0 then q
  else q + 1

/-- The value of the cast `(float) n` of a non-negative integer: `n` rounded
to 24 significant bits, to nearest, ties to even.  The value is an integer. -/
def toFloat (n : Nat) : Nat :=
  let e := ilog2 n
  if e < 24 then n
  else roundHalfEven n (2 ^ (e - 23)) * 2 ^ (e - 23)

/-- The value of `floor(a / b)` where `a`, `b` are positive `float`s with
integer values and `/` is the single-precision division: the quotient is
rounded to 24 significant bits (to nearest, ties to even) before the floor.
With `e` the binary exponent of the exact quotient, `s` is the number of
binary places kept below the unit and `t` the number dropped above it. -/
def floatDivFloor (a b : Nat) : Nat :=
  if a = 0 then 0
  else
    let e0 : Int := (ilog2 a : Int) - (ilog2 b : Int)
    let e : Int := if b * 2 ^ e0.toNat ≤ a * 2 ^ (-e0).toNat then e0 else e0 - 1
    let s := (23 - e).toNat
    let t := (e - 23).toNat
    roundHalfEven (a * 2 ^ s) (b * 2 ^ t) * 2 ^ t / 2 ^ s

/-! ## Doubles -/

/-- A `double`: a finite value, or NaN.  Infinities are left out: the
divisions by zero that the functions below perform (the Hann phase for a
window of 1, the normalization of a zero vector) have a zero numerator, which
IEEE-754 evaluates to NaN, and no other operation on finite values leaves the
finite range in exact arithmetic. -/
inductive Dbl (K : Type) where
  | fin (x : K)
  | nan
deriving DecidableEq, Repr

/-- The functions of `<cmath>` used by the code, on finite arguments, and the
constant `PI` of `common.hpp`. -/
structure Libm (K : Type) where
  pi : K
  cos : K → K
  sqrt : K → K

namespace Dbl

variable {K : Type} [LinearOrderedField K]

/-- Addition `x + y`. -/
def add : Dbl K → Dbl K → Dbl K
  | fin a, fin b => fin (a + b)
  | _, _ => nan

/-- Subtraction `x - y`. -/
def sub : Dbl K → Dbl K → Dbl K
  | fin a, fin b => fin (a - b)
  | _, _ => nan

/-- Multiplication `x * y`. -/
def mul : Dbl K → Dbl K → Dbl K
  | fin a, fin b => fin (a * b)
  | _, _ => nan

/-- Division `x / y`; a zero divisor gives NaN. -/
def div : Dbl K → Dbl K → Dbl K
  | fin a, fin b => if b = 0 then nan else fin (a / b)
  | _, _ => nan

/-- The call `std::cos(x)`. -/
def cos (m : Libm K) : Dbl K → Dbl K
  | fin a => fin (m.cos a)
  | nan => nan

/-- The call `std::sqrt(x)`; a negative argument gives NaN. -/
def sqrt (m : Libm K) : Dbl K → Dbl K
  | fin a => if a < 0 then nan else fin (m.sqrt a)
  | nan => nan

/-- The comparison `x >= c` against a finite constant; false on NaN. -/
def ge (x : Dbl K) (c : K) : Bool :=
  match x with
  | fin a => decide (c ≤ a)
  | nan => false

/-- The order `x <= y` of two doubles; NaN is not comparable. -/
def le : Dbl K → Dbl K → Prop
  | fin a, fin b => a ≤ b
  | _, _ => False

/-- The strict order `x < y` of two doubles; NaN is not comparable. -/
def lt : Dbl K → Dbl K → Prop
  | fin a, fin b => a < b
  | _, _ => False

end Dbl

/-! ## Data model (`common.hpp`) -/

/-- A grid cell `{i, j}`. -/
structure DtwPathElement where
  i : Int
  j : Int
deriving DecidableEq, Repr

/-- A warping path. -/
abbrev Path := List DtwPathElement

/-- A search window: the cells the windowed engine may visit. -/
abbrev Window := List DtwPathElement

/-- A feature vector, `std::vector<double>`. -/
abbrev SpeechTsElem (K : Type) := List (Dbl K)

/-- A series of feature vectors. -/
abbrev SpeechTs (K : Type) := List (SpeechTsElem K)

/-- One resolution level: smoothing window length and downsample factor. -/
structure CentParam where
  window : Int
  downsample : Int
deriving DecidableEq, Repr

/-- Modelled from the spec: the result type `DtwAnswer` is declared in
`common.hpp`, which is not among the sources; the spec describes it as the
computed path plus its total cumulative cost. -/
structure DtwAnswer (K : Type) where
  path : Path
  cost : Dbl K

/-- The two overloads of `dtw::dtw<SpeechTsElem>` with the distance
`getSpeechTsElemDist` already supplied.  They are defined outside
`fast_dtw.cpp`; the driver is parametric in them. -/
structure Engine (K : Type) where
  full : SpeechTs K → SpeechTs K → Except Err (DtwAnswer K)
  windowed : SpeechTs K → SpeechTs K → Window → Except Err (DtwAnswer K)

namespace detail

/-! ## Window projection -/

/-- Lines 17-25: the `(2 radius + 1)²` neighbours of every path cell, in the
order they are pushed.  The `reserve` of line 18 asks for room for zero
elements and has no effect. -/
def lowResExpandPath (low_res_path : Path) (radius : Int) : List DtwPathElement :=
  low_res_path.flatMap fun point =>
    (forRange (-radius) (radius + 1)).flatMap fun i =>
      (forRange (-radius) (radius + 1)).map fun j =>
        { i := point.i + i, j := point.j + j }

/-- The occupancy grid `high_res_expand_path`: `len1` rows of `len2` shorts. -/
abbrev Grid := List (List Int)

/-- Lines 27-30: every entry is `-1`. -/
def emptyGrid (len1 len2 : Nat) : Grid :=
  List.replicate len1 (List.replicate len2 (-1))

/-- The assignment `grid[i][j] = v` for indices in range. -/
def setCell (grid : Grid) (i j : Nat) (v : Int) : Grid :=
  grid.modify (fun row => row.set j v) i

/-- Lines 34-37: the guarded assignment for one upsampled cell. -/
def markCell (len1 len2 : Nat) (grid : Grid) (new_i new_j : Int) : Grid :=
  if 0 ≤ new_i ∧ new_i < len1 ∧ 0 ≤ new_j ∧ new_j < len2 then
    setCell grid new_i.toNat new_j.toNat 1
  else grid

/-- Lines 32-39: the two loops over `[0, upsample)` for one expanded cell. -/
def markPoint (len1 len2 : Nat) (upsample : Int) (grid : Grid)
    (point : DtwPathElement) : Grid :=
  (forRange 0 upsample).foldl
    (fun g i =>
      (forRange 0 upsample).foldl
        (fun g j => markCell len1 len2 g (point.i * upsample + i) (point.j * upsample + j))
        g)
    grid

/-- Lines 27-40: the grid after every expanded cell has been marked. -/
def highResExpandPath (low_res_expand_path : List DtwPathElement)
    (len1 len2 : Nat) (upsample : Int) : Grid :=
  low_res_expand_path.foldl (markPoint len1 len2 upsample) (emptyGrid len1 len2)

/-- The read `grid[i][j]`; outside the vector it is undefined. -/
def readCell (grid : Grid) (i : Nat) (j : Int) : Except Err Int :=
  if j < 0 then .error .outOfRange
  else
    match grid[i]? with
    | none => .error .outOfRange
    | some row =>
      match row[j.toNat]? with
      | none => .error .outOfRange
      | some v => .ok v

/-- Lines 46-56: the scan of row `i` over the remaining columns `js`, with the
current values of `new_start_j` and `window`.  It returns `new_start_j` and
the window at loop exit. -/
def scanRow (grid : Grid) (i : Nat) (start_j : Int) :
    List Int → Int → Window → Except Err (Int × Window)
  | [], new_start_j, window => .ok (new_start_j, window)
  | j :: js, new_start_j, window =>
    match readCell grid i j with
    | .error e => .error e
    | .ok v =>
      if v = 1 then
        scanRow grid i start_j js (if new_start_j < 0 then start_j else new_start_j)
          (window ++ [{ i := (i : Int), j := j }])
      else if new_start_j ≥ 0 then .ok (new_start_j, window)
      else scanRow grid i start_j js new_start_j window

/-- Lines 44-58: the loop over the rows, with the current `start_j` and
`window`. -/
def scanRows (grid : Grid) (len2 : Nat) : List Nat → Int → Window → Except Err Window
  | [], _, window => .ok window
  | i :: rows, start_j, window =>
    match scanRow grid i start_j (forRange start_j len2) (-1) window with
    | .error e => .error e
    | .ok (new_start_j, window') => scanRows grid len2 rows new_start_j window'

/-- The function `expandResWindow`.  The sizes `len1`, `len2` are the lengths
of two series at every call site. -/
def expandResWindow (low_res_path : Path) (len1 len2 : Nat) (radius upsample : Int) :
    Except Err Window :=
  let low_res_expand_path := lowResExpandPath low_res_path radius
  let high_res_expand_path := highResExpandPath low_res_expand_path len1 len2 upsample
  scanRows high_res_expand_path len2 (List.range len1) 0 []

/-! ## Feature quantizer -/

section Features

variable {K : Type} [LinearOrderedField K]

/-- Lines 65-75: the bucket pushed for one component.  The literals denote
the doubles nearest to 0.4, 0.2, 0.1 and 0.05, each of which lies above its
decimal with no double in between, so a double passes a comparison with the
literal exactly when it passes the comparison with the decimal. -/
def quantizeElem (elem : Dbl K) : Dbl K :=
  if elem.ge 0.4 then Dbl.fin 4
  else if elem.ge 0.2 then Dbl.fin 3
  else if elem.ge 0.1 then Dbl.fin 2
  else if elem.ge 0.05 then Dbl.fin 1
  else Dbl.fin 0

/-- The function `quantizeFeatureVector`: one bucket is pushed per component,
in order. -/
def quantizeFeatureVector (vec : SpeechTsElem K) : SpeechTsElem K :=
  vec.foldl (fun quant_vec elem => quant_vec ++ [quantizeElem elem]) []

/-- The function `quantizeFeatures`. -/
def quantizeFeatures (ts : SpeechTs K) : SpeechTs K :=
  ts.foldl (fun quantTs ts_elem => quantTs ++ [quantizeFeatureVector ts_elem]) []

/-! ## Feature summarizer -/

/-- Lines 91-94: the sum of the squares of the components. -/
def sumSquares (vec : SpeechTsElem K) : Dbl K :=
  vec.foldl (fun sum elem => sum.add (elem.mul elem)) (Dbl.fin 0)

/-- The function `normalizeFeatureVector`, returning the updated vector. -/
def normalizeFeatureVector (m : Libm K) (vec : SpeechTsElem K) : SpeechTsElem K :=
  let sum := sumSquares vec
  vec.map fun elem => elem.div (Dbl.sqrt m sum)

/-- Line 105: the value stored in `hann_window[i]`. -/
def hannValue (m : Libm K) (window i : Int) : Dbl K :=
  ((Dbl.fin 1).sub
    (Dbl.cos m ((Dbl.fin (2 * m.pi * (i : K))).div (Dbl.fin ((window - 1 : Int) : K))))).div
    (Dbl.fin 2)

/-- Lines 120-122: `cent[i][k] += h * features[k]` for every `k` below the
length of `cent_i`; reading `features` beyond its end is undefined. -/
def addScaled (h : Dbl K) (features cent_i : SpeechTsElem K) :
    Except Err (SpeechTsElem K) :=
  if features.length < cent_i.length then .error .outOfRange
  else .ok (List.zipWith (fun c f => c.add (h.mul f)) cent_i features)

/-- Lines 116-124: the loop over the kernel offsets `js` for output row `i`,
with the current value of `cent[i]`. -/
def accumulate (m : Libm K) (quant_ts : SpeechTs K) (window downsample half_window i : Int) :
    List Int → SpeechTsElem K → Except Err (SpeechTsElem K)
  | [], cent_i => .ok cent_i
  | j :: js, cent_i =>
    let n := i * downsample + j - half_window
    if 0 ≤ n ∧ n.toNat < quant_ts.length then
      match quant_ts[n.toNat]? with
      | none => .error .outOfRange
      | some features =>
        match addScaled (hannValue m window j) features cent_i with
        | .error e => .error e
        | .ok cent_i' => accumulate m quant_ts window downsample half_window i js cent_i'
    else accumulate m quant_ts window downsample half_window i js cent_i

/-- Lines 114-125: the output vector of row `i`. -/
def centRow (m : Libm K) (quant_ts : SpeechTs K) (window downsample half_window : Int)
    (feature_count : Nat) (i : Int) : Except Err (SpeechTsElem K) :=
  match accumulate m quant_ts window downsample half_window i (forRange 0 window)
      (List.replicate feature_count (Dbl.fin 0)) with
  | .error e => .error e
  | .ok cent_i => .ok (normalizeFeatureVector m cent_i)

/-- Lines 113-126: the loop over the output rows `rows`. -/
def centRows (m : Libm K) (quant_ts : SpeechTs K) (window downsample half_window : Int)
    (feature_count : Nat) : List Int → Except Err (SpeechTs K)
  | [] => .ok []
  | i :: rows =>
    match centRow m quant_ts window downsample half_window feature_count i with
    | .error e => .error e
    | .ok cent_i =>
      match centRows m quant_ts window downsample half_window feature_count rows with
      | .error e => .error e
      | .ok cent => .ok (cent_i :: cent)

/-- Line 108: `(int) floor((float) size / (float) downsample)` for a positive
`downsample`. -/
def centSize (size : Nat) (downsample : Int) : Int :=
  (floatDivFloor (toFloat size) (toFloat downsample.toNat) : Nat)

/-- Line 109: `(int) floor((float) window / 2.0)` for a non-negative
`window`. -/
def halfWindow (window : Int) : Int :=
  (toFloat window.toNat / 2 : Nat)

/-- The function `computeCENT`.  A negative `window` makes the constructor of
`hann_window` throw; a zero `downsample` makes line 108 cast a non-finite value
to `int`; an empty series makes line 110 read `quant_ts[0]` out of range; a
negative `downsample` gives a negative `cent_size`, so the constructor of
`cent` throws. -/
def computeCENT (m : Libm K) (ts : SpeechTs K) (window downsample : Int) :
    Except Err (SpeechTs K) :=
  let quant_ts := quantizeFeatures ts
  if window < 0 then .error .lengthError
  else if downsample = 0 then .error .badCast
  else
    match quant_ts with
    | [] => .error .outOfRange
    | first :: _ =>
      if downsample < 0 then .error .lengthError
      else
        let cent_size := centSize quant_ts.length downsample
        let half_window := halfWindow window
        let feature_count := first.length
        centRows m quant_ts window downsample half_window feature_count (forRange 0 cent_size)

/-! ## Recursive step of the driver -/

/-- The function `_msDtw`. -/
def _msDtw (E : Engine K) (m : Libm K) (ts1 ts2 : SpeechTs K) (radius : Int) :
    List CentParam → Except Err (DtwAnswer K)
  | [] => .error .logicError
  | front :: cens_params =>
    let feature_window := front.window
    let downsample := front.downsample
    if feature_window < 1 ∨ downsample < 2 then .error .invalidArgument
    else
      match computeCENT m ts1 feature_window downsample with
      | .error e => .error e
      | .ok shrunk_ts1 =>
        match computeCENT m ts2 feature_window downsample with
        | .error e => .error e
        | .ok shrunk_ts2 =>
          let min_ts_size := radius + 2
          if shrunk_ts1.length < toSizeT min_ts_size ∨ shrunk_ts2.length < toSizeT min_ts_size
              ∨ cens_params = [] then
            E.full shrunk_ts1 shrunk_ts2
          else
            match cens_params.head? with
            | none => .error .outOfRange
            | some next =>
              let lower_downsample := next.downsample
              let upsample := lower_downsample.tdiv downsample
              match _msDtw E m ts1 ts2 radius cens_params with
              | .error e => .error e
              | .ok low_res =>
                match expandResWindow low_res.path shrunk_ts1.length shrunk_ts2.length
                    radius upsample with
                | .error e => .error e
                | .ok window => E.windowed shrunk_ts1 shrunk_ts2 window

end Features

end detail

/-! ## Public entry -/

namespace dtw

variable {K : Type} [LinearOrderedField K]

/-- The function `msDtw`. -/
def msDtw (E : Engine K) (m : Libm K) (ts1 ts2 : SpeechTs K) (radius : Int)
    (cens_params : List CentParam) : Except Err (DtwAnswer K) :=
  if radius < 1 then .error .invalidArgument
  else
    match cens_params.head? with
    | none => E.full ts1 ts2
    | some front =>
      let downsample := front.downsample
      match detail._msDtw E m ts1 ts2 radius cens_params with
      | .error e => .error e
      | .ok low_res =>
        match detail.expandResWindow low_res.path ts1.length ts2.length radius downsample with
        | .error e => .error e
        | .ok window => E.windowed ts1 ts2 window

end dtw

/-! ## Notions used to state the properties -/

/-- The entry `grid[i][j]` of an occupancy grid, when both indices are in
range. -/
def cellAt (grid : detail.Grid) (i j : Nat) : Option Int :=
  (grid[i]?).bind fun row => row[j]?

/-- A grid has `len1` rows of `len2` entries and holds `1` exactly at the cells
of `S`. -/
def GridInv (len1 len2 : Nat) (S : Nat → Nat → Prop) (grid : detail.Grid) : Prop :=
  ∀ i j, ((cellAt grid i j).isSome ↔ i < len1 ∧ j < len2) ∧
    (cellAt grid i j = some 1 ↔ i < len1 ∧ j < len2 ∧ S i j)

/-- The cell `(x, y)` lies in the upsampled radius-neighbourhood of the path:
it is one of the `upsample × upsample` cells under a cell within `radius` (in
both coordinates) of a path cell. -/
def inNeighbourhood (low_res_path : Path) (radius upsample : Int) (x y : Int) : Prop :=
  ∃ p ∈ low_res_path, ∃ di dj u v : Int,
    -radius ≤ di ∧ di ≤ radius ∧ -radius ≤ dj ∧ dj ≤ radius ∧
    0 ≤ u ∧ u < upsample ∧ 0 ≤ v ∧ v < upsample ∧
    x = (p.i + di) * upsample + u ∧ y = (p.j + dj) * upsample + v

/-- The cell `(x, y)` of the `len1 × len2` target grid is marked allowed. -/
def marked (low_res_path : Path) (len1 len2 : Nat) (radius upsample : Int) (x y : Int) :
    Prop :=
  0 ≤ x ∧ x < len1 ∧ 0 ≤ y ∧ y < len2 ∧ inNeighbourhood low_res_path radius upsample x y

/-- Column `j` of row `i` holds `1`. -/
def gridAllowed (grid : detail.Grid) (i : Nat) (j : Int) : Bool :=
  decide (0 ≤ j) && (cellAt grid i j.toNat == some 1)

/-- The first maximal run of columns satisfying `a` among `js`. -/
def firstRun (a : Int → Bool) (js : List Int) : List Int :=
  (js.dropWhile fun j => !a j).takeWhile a

/-- The cells contributed by row `i` when its scan starts at column 0. -/
def rowCells (grid : detail.Grid) (len2 : Nat) (i : Nat) : Window :=
  (firstRun (gridAllowed grid i) (forRange 0 len2)).map fun j => { i := (i : Int), j := j }


/-- One step of an alignment path: down, right, or diagonal. -/
def pathStep (p q : DtwPathElement) : Prop :=
  (q.i = p.i + 1 ∧ q.j = p.j) ∨ (q.i = p.i ∧ q.j = p.j + 1) ∨ (q.i = p.i + 1 ∧ q.j = p.j + 1)

/-- A monotone, connected path: consecutive cells differ by one step. -/
def isAlignmentPath (path : Path) : Prop :=
  List.Chain' pathStep path







/-! ## Block reducers -/

namespace dtw

variable {K : Type} [LinearOrderedField K]

/-- A series of scalars, `std::vector<double>`. -/
abbrev DoubleTs (K : Type) := List (Dbl K)

/-- Lines 172-178: one iteration of the loop of `reduceDoubleTs` on the state
`(reduced_ts, sum, count)`. -/
def reduceStep (downsample_scale : Int) (state : DoubleTs K × Dbl K × Int) (elem : Dbl K) :
    DoubleTs K × Dbl K × Int :=
  let sum := state.2.1.add elem
  let count := state.2.2 + 1
  if count = downsample_scale then
    (state.1 ++ [sum.div (Dbl.fin ((downsample_scale : Int) : K))], Dbl.fin 0, 0)
  else (state.1, sum, count)

/-- The function `reduceDoubleTs`. -/
def reduceDoubleTs (ts : DoubleTs K) (downsample_scale : Int) : DoubleTs K :=
  (ts.foldl (reduceStep downsample_scale) ([], Dbl.fin 0, 0)).1

/-- The function `reduceSpeechTs`: its body is a single `throw`. -/
def reduceSpeechTs (_ts : SpeechTs K) (_w _downsample : Int) : Except Err (SpeechTs K) :=
  .error .invalidArgument

end dtw

/-- The sum of a run of scalars, added from left to right starting at 0. -/
def blockSum {K : Type} [LinearOrderedField K] (block : List (Dbl K)) : Dbl K :=
  block.foldl Dbl.add (Dbl.fin 0)

/-- Row-major order on cells: by row, then by column. -/
def rowMajorLt (p q : DtwPathElement) : Prop :=
  p.i < q.i ∨ (p.i = q.i ∧ p.j < q.j)






/-! ## Stand-ins used to run the definitions on concrete inputs -/

/-- A stand-in for `<cmath>` over the rationals.  The theorems hold for every
`Libm`; this one only serves to instantiate them. -/
def ratLibm : Libm ℚ :=
  { pi := 22 / 7, cos := fun x => 1 - x * x / 2, sqrt := fun x => x }

/-- An engine whose two overloads always throw a logic error. -/
def failingEngine : Engine ℚ :=
  { full := fun _ _ => .error .logicError
    windowed := fun _ _ _ => .error .logicError }

/-- An engine that answers the full-grid call with a one-cell path and the
windowed call with the window it was given. -/
def echoEngine : Engine ℚ :=
  { full := fun _ _ => .ok { path := [{ i := 0, j := 0 }], cost := Dbl.fin 0 }
    windowed := fun _ _ window => .ok { path := window, cost := Dbl.fin 0 } }

/-- An engine that answers both calls with the diagonal path
`(0,0), (1,1), ...` over the length of the first series, the optimal path for
two identical series. -/
def diagonalEngine : Engine ℚ :=
  { full := fun a _ =>
      .ok { path := (List.range a.length).map fun k => { i := (k : Int), j := (k : Int) },
            cost := Dbl.fin 0 }
    windowed := fun a _ _ =>
      .ok { path := (List.range a.length).map fun k => { i := (k : Int), j := (k : Int) },
            cost := Dbl.fin 0 } }

/-! # Theorems -/

section Quantizer

variable {K : Type} [LinearOrderedField K]

theorem foldl_push_eq_map {α β : Type} (f : α → β) (l : List α) (init : List β) :
    l.foldl (fun acc x => acc ++ [f x]) init = init ++ l.map f := by
  induction l generalizing init with
  | nil => simp
  | cons x xs ih => simp [ih]

theorem quantizeFeatureVector_eq_map (vec : SpeechTsElem K) :
    detail.quantizeFeatureVector vec = vec.map detail.quantizeElem := by
  simp [detail.quantizeFeatureVector, foldl_push_eq_map]

theorem quantizeFeatures_eq_map (ts : SpeechTs K) :
    detail.quantizeFeatures ts = ts.map detail.quantizeFeatureVector := by
  simp [detail.quantizeFeatures, foldl_push_eq_map]

theorem quantizeElem_cases (x : Dbl K) :
    detail.quantizeElem x = Dbl.fin 0 ∨ detail.quantizeElem x = Dbl.fin 1 ∨
    detail.quantizeElem x = Dbl.fin 2 ∨ detail.quantizeElem x = Dbl.fin 3 ∨
    detail.quantizeElem x = Dbl.fin 4 := by
  unfold detail.quantizeElem
  split_ifs <;> simp

theorem quantizeElem_bands (x : Dbl K) :
    (Dbl.le (Dbl.fin 0.4) x → detail.quantizeElem x = Dbl.fin 4) ∧
    (Dbl.le (Dbl.fin 0.2) x → Dbl.lt x (Dbl.fin 0.4) → detail.quantizeElem x = Dbl.fin 3) ∧
    (Dbl.le (Dbl.fin 0.1) x → Dbl.lt x (Dbl.fin 0.2) → detail.quantizeElem x = Dbl.fin 2) ∧
    (Dbl.le (Dbl.fin 0.05) x → Dbl.lt x (Dbl.fin 0.1) → detail.quantizeElem x = Dbl.fin 1) ∧
    (¬ Dbl.le (Dbl.fin 0.05) x → detail.quantizeElem x = Dbl.fin 0) := by
  cases x with
  | nan => simp [Dbl.le, Dbl.lt, detail.quantizeElem, Dbl.ge]
  | fin a =>
    simp only [Dbl.le, Dbl.lt, detail.quantizeElem, Dbl.ge, decide_eq_true_eq]
    refine ⟨?_, ?_, ?_, ?_, ?_⟩
    · intro h; simp [h]
    · intro h1 h2; simp [h1, not_le.mpr h2]
    · intro h1 h2
      have h4 : ¬ ((0.4 : K) ≤ a) := by
        intro h; norm_num at h h2; linarith
      simp [h1, not_le.mpr h2, h4]
    · intro h1 h2
      have h4 : ¬ ((0.4 : K) ≤ a) := by
        intro h; norm_num at h h2; linarith
      have h3 : ¬ ((0.2 : K) ≤ a) := by
        intro h; norm_num at h h2; linarith
      simp [h1, not_le.mpr h2, h4, h3]
    · intro h1
      have h4 : ¬ ((0.4 : K) ≤ a) := by
        intro h; norm_num at h h1; linarith
      have h3 : ¬ ((0.2 : K) ≤ a) := by
        intro h; norm_num at h h1; linarith
      have h2 : ¬ ((0.1 : K) ≤ a) := by
        intro h; norm_num at h h1; linarith
      simp [h1, h2, h3, h4]

theorem quantizeElem_mono (x y : Dbl K) (h : Dbl.le x y) :
    Dbl.le (detail.quantizeElem x) (detail.quantizeElem y) := by
  cases x with
  | nan => simp [Dbl.le] at h
  | fin a =>
    cases y with
    | nan => simp [Dbl.le] at h
    | fin b =>
      simp only [Dbl.le] at h
      simp only [detail.quantizeElem, Dbl.ge, decide_eq_true_eq]
      split_ifs <;> simp only [Dbl.le] <;>
        first
        | (norm_num; done)
        | (exfalso; norm_num at *; linarith)

/-- C4: `quantizeFeatureVector v` has the length of `v`; its `k`-th component
is 4 when `v[k] >= 0.4`, 3 when `0.2 <= v[k] < 0.4`, 2 when `0.1 <= v[k] < 0.2`,
1 when `0.05 <= v[k] < 0.1` and 0 otherwise, hence always one of 0, 1, 2, 3, 4;
`quantizeFeatures ts` has the length of `ts` and its `n`-th vector is the
quantized `n`-th vector of `ts`. -/
theorem quantize_buckets (v : SpeechTsElem K) (ts : SpeechTs K) :
    (detail.quantizeFeatureVector v).length = v.length ∧
    (∀ (k : Nat) (x : Dbl K), v[k]? = some x →
      (Dbl.le (Dbl.fin 0.4) x → (detail.quantizeFeatureVector v)[k]? = some (Dbl.fin 4)) ∧
      (Dbl.le (Dbl.fin 0.2) x → Dbl.lt x (Dbl.fin 0.4) →
        (detail.quantizeFeatureVector v)[k]? = some (Dbl.fin 3)) ∧
      (Dbl.le (Dbl.fin 0.1) x → Dbl.lt x (Dbl.fin 0.2) →
        (detail.quantizeFeatureVector v)[k]? = some (Dbl.fin 2)) ∧
      (Dbl.le (Dbl.fin 0.05) x → Dbl.lt x (Dbl.fin 0.1) →
        (detail.quantizeFeatureVector v)[k]? = some (Dbl.fin 1)) ∧
      (¬ Dbl.le (Dbl.fin 0.05) x →
        (detail.quantizeFeatureVector v)[k]? = some (Dbl.fin 0))) ∧
    (∀ q ∈ detail.quantizeFeatureVector v,
      q = Dbl.fin 0 ∨ q = Dbl.fin 1 ∨ q = Dbl.fin 2 ∨ q = Dbl.fin 3 ∨ q = Dbl.fin 4) ∧
    (detail.quantizeFeatures ts).length = ts.length ∧
    (∀ n : Nat, (detail.quantizeFeatures ts)[n]? = (ts[n]?).map detail.quantizeFeatureVector) ∧
    (∀ n : Nat, ∀ vec, ts[n]? = some vec →
      ∃ qvec, (detail.quantizeFeatures ts)[n]? = some qvec ∧ qvec.length = vec.length) := by
  refine ⟨by simp [quantizeFeatureVector_eq_map], ?_, ?_, by simp [quantizeFeatures_eq_map],
    ?_, ?_⟩
  · intro k x hx
    have hk : (detail.quantizeFeatureVector v)[k]? = some (detail.quantizeElem x) := by
      simp [quantizeFeatureVector_eq_map, hx]
    rw [hk]
    obtain ⟨h4, h3, h2, h1, h0⟩ := quantizeElem_bands x
    exact ⟨fun a => by rw [h4 a], fun a b => by rw [h3 a b], fun a b => by rw [h2 a b],
      fun a b => by rw [h1 a b], fun a => by rw [h0 a]⟩
  · intro q hq
    rw [quantizeFeatureVector_eq_map, List.mem_map] at hq
    obtain ⟨x, _, rfl⟩ := hq
    exact quantizeElem_cases x
  · intro n
    simp [quantizeFeatures_eq_map]
  · intro n vec hn
    refine ⟨detail.quantizeFeatureVector vec, by simp [quantizeFeatures_eq_map, hn], ?_⟩
    simp [quantizeFeatureVector_eq_map]

theorem quantize_buckets_witness :
    ([Dbl.fin (0.3 : ℚ)] : SpeechTsElem ℚ)[0]? = some (Dbl.fin (0.3 : ℚ)) ∧
    Dbl.le (Dbl.fin (0.2 : ℚ)) (Dbl.fin 0.3) ∧ Dbl.lt (Dbl.fin (0.3 : ℚ)) (Dbl.fin 0.4) ∧
    (detail.quantizeFeatureVector [Dbl.fin (0.3 : ℚ)])[0]? = some (Dbl.fin 3) :=
  have h1 : ([Dbl.fin (0.3 : ℚ)] : SpeechTsElem ℚ)[0]? = some (Dbl.fin (0.3 : ℚ)) := rfl
  have h2 : Dbl.le (Dbl.fin (0.2 : ℚ)) (Dbl.fin 0.3) := by simp only [Dbl.le]; norm_num
  have h3 : Dbl.lt (Dbl.fin (0.3 : ℚ)) (Dbl.fin 0.4) := by simp only [Dbl.lt]; norm_num
  ⟨h1, h2, h3, ((quantize_buckets [Dbl.fin (0.3 : ℚ)] []).2.1 0 _ h1).2.1 h2 h3⟩

/-- C5: the quantizer is monotone: whenever the `k`-th components `x` of `v`
and `y` of `w` satisfy `x <= y`, the `k`-th bucket of `v` is at most the
`k`-th bucket of `w`. -/
theorem quantize_monotone (v w : SpeechTsElem K) (k : Nat) (x y : Dbl K)
    (hx : v[k]? = some x) (hy : w[k]? = some y) (hxy : Dbl.le x y) :
    ∃ a b, (detail.quantizeFeatureVector v)[k]? = some a ∧
      (detail.quantizeFeatureVector w)[k]? = some b ∧ Dbl.le a b :=
  ⟨detail.quantizeElem x, detail.quantizeElem y,
    by simp [quantizeFeatureVector_eq_map, hx],
    by simp [quantizeFeatureVector_eq_map, hy],
    quantizeElem_mono x y hxy⟩

theorem quantize_monotone_witness :
    Dbl.le (Dbl.fin (0.07 : ℚ)) (Dbl.fin 0.25) ∧
    ∃ a b, (detail.quantizeFeatureVector [Dbl.fin (0.07 : ℚ)])[0]? = some a ∧
      (detail.quantizeFeatureVector [Dbl.fin (0.25 : ℚ)])[0]? = some b ∧ Dbl.le a b :=
  have h : Dbl.le (Dbl.fin (0.07 : ℚ)) (Dbl.fin 0.25) := by simp only [Dbl.le]; norm_num
  ⟨h, quantize_monotone [Dbl.fin 0.07] [Dbl.fin 0.25] 0 _ _ rfl rfl h⟩

end Quantizer

section Driver

variable {K : Type} [LinearOrderedField K]

/-- C1: with `radius < 1`, `msDtw` fails with the invalid-argument error for
every pair of series, every parameter list, every engine and every math
library: neither a summarization nor an engine call can change the outcome,
so none precedes the check. -/
theorem msDtw_radius_lt_one (E : Engine K) (m : Libm K) (ts1 ts2 : SpeechTs K)
    (radius : Int) (cens_params : List CentParam) (h : radius < 1) :
    dtw.msDtw E m ts1 ts2 radius cens_params = .error .invalidArgument := by
  simp [dtw.msDtw, h]

theorem msDtw_radius_lt_one_witness :
    (0 : Int) < 1 ∧
    dtw.msDtw failingEngine ratLibm [] [[Dbl.fin 1]] 0 [{ window := 0, downsample := 1 }]
      = .error .invalidArgument :=
  ⟨by decide, msDtw_radius_lt_one _ _ _ _ _ _ (by decide)⟩

/-- C2: with `radius >= 1` and an empty parameter list, `msDtw` returns what
the full-grid engine returns on the raw series, be it an answer or a failure. -/
theorem msDtw_nil (E : Engine K) (m : Libm K) (ts1 ts2 : SpeechTs K)
    (radius : Int) (h : 1 ≤ radius) :
    dtw.msDtw E m ts1 ts2 radius [] = E.full ts1 ts2 := by
  simp [dtw.msDtw, not_lt.mpr h]

theorem msDtw_nil_witness :
    (1 : Int) ≤ 1 ∧
    dtw.msDtw echoEngine ratLibm [[Dbl.fin 1]] [[Dbl.fin 1]] 1 []
      = echoEngine.full [[Dbl.fin 1]] [[Dbl.fin 1]] :=
  ⟨by decide, msDtw_nil _ _ _ _ _ (by decide)⟩

end Driver

section Projection

open detail

theorem mem_countFrom (n : Nat) (lo x : Int) :
    x ∈ countFrom lo n ↔ lo ≤ x ∧ x < lo + n := by
  induction n generalizing lo with
  | zero => simp [countFrom]
  | succ n ih =>
    simp only [countFrom, List.mem_cons, ih]
    push_cast
    omega

theorem mem_forRange (lo hi x : Int) : x ∈ forRange lo hi ↔ lo ≤ x ∧ x < hi := by
  simp only [forRange, mem_countFrom]
  omega

theorem cellAt_emptyGrid (len1 len2 i j : Nat) :
    cellAt (emptyGrid len1 len2) i j = if i < len1 ∧ j < len2 then some (-1) else none := by
  simp only [cellAt, emptyGrid, List.getElem?_replicate]
  by_cases h1 : i < len1 <;> by_cases h2 : j < len2 <;> simp [h1, h2, List.getElem?_replicate]

theorem cellAt_setCell (grid : Grid) (a b : Nat) (v : Int) (i j : Nat) :
    cellAt (setCell grid a b v) i j =
      if i = a ∧ j = b then (cellAt grid a b).map (fun _ => v) else cellAt grid i j := by
  simp only [cellAt, setCell, List.getElem?_modify]
  cases hrow : grid[i]? with
  | none =>
    by_cases h : i = a ∧ j = b
    · obtain ⟨rfl, rfl⟩ := h
      simp [hrow]
    · simp [h]
  | some row =>
    by_cases hi : a = i
    · subst hi
      simp only [hrow, Option.map_some', if_true, Option.some_bind, List.getElem?_set, true_and,
        Functor.map]
      by_cases hj : b = j
      · subst hj
        simp only [if_true]
        by_cases hlt : b < row.length
        · simp [hlt, List.getElem?_eq_getElem]
        · simp [hlt, List.getElem?_eq_none (not_lt.mp hlt)]
      · have hj' : ¬ j = b := fun h => hj h.symm
        simp [hj, hj']
    · have hi' : ¬ i = a := fun h => hi h.symm
      simp [hrow, hi, hi']

theorem GridInv.congr {len1 len2 : Nat} {S S' : Nat → Nat → Prop} {grid : Grid}
    (h : GridInv len1 len2 S grid) (hS : ∀ i j, i < len1 → j < len2 → (S i j ↔ S' i j)) :
    GridInv len1 len2 S' grid := by
  intro i j
  refine ⟨(h i j).1, ?_⟩
  rw [(h i j).2]
  constructor
  · rintro ⟨h1, h2, h3⟩; exact ⟨h1, h2, (hS i j h1 h2).mp h3⟩
  · rintro ⟨h1, h2, h3⟩; exact ⟨h1, h2, (hS i j h1 h2).mpr h3⟩

theorem GridInv.emptyGrid (len1 len2 : Nat) :
    GridInv len1 len2 (fun _ _ => False) (emptyGrid len1 len2) := by
  intro i j
  rw [cellAt_emptyGrid]
  by_cases h : i < len1 ∧ j < len2
  · simp [h]
  · simp [h]

theorem GridInv.markCell {len1 len2 : Nat} {S : Nat → Nat → Prop} {grid : Grid}
    (h : GridInv len1 len2 S grid) (a b : Int) :
    GridInv len1 len2 (fun i j => S i j ∨ ((i : Int) = a ∧ (j : Int) = b))
      (markCell len1 len2 grid a b) := by
  unfold detail.markCell
  split_ifs with hb
  · obtain ⟨ha0, ha1, hb0, hb1⟩ := hb
    have hA : a.toNat < len1 := by omega
    have hB : b.toNat < len2 := by omega
    have hsome : (cellAt grid a.toNat b.toNat).isSome := ((h _ _).1).mpr ⟨hA, hB⟩
    obtain ⟨v0, hv0⟩ := Option.isSome_iff_exists.mp hsome
    intro i j
    rw [cellAt_setCell]
    by_cases hij : i = a.toNat ∧ j = b.toNat
    · obtain ⟨rfl, rfl⟩ := hij
      simp only [and_self, if_true, hv0, Option.map_some', Option.isSome_some, true_iff]
      exact ⟨⟨hA, hB⟩, hA, hB, Or.inr ⟨by omega, by omega⟩⟩
    · simp only [hij, if_false]
      refine ⟨(h i j).1, ?_⟩
      rw [(h i j).2]
      constructor
      · rintro ⟨h1, h2, h3⟩; exact ⟨h1, h2, Or.inl h3⟩
      · rintro ⟨h1, h2, h3 | ⟨h3, h4⟩⟩
        · exact ⟨h1, h2, h3⟩
        · exact absurd ⟨by omega, by omega⟩ hij
  · refine h.congr ?_
    intro i j hi hj
    constructor
    · exact Or.inl
    · rintro (h3 | ⟨h3, h4⟩)
      · exact h3
      · exact absurd ⟨by omega, by omega, by omega, by omega⟩ hb

theorem GridInv.foldl {α : Type} {len1 len2 : Nat} (step : Grid → α → Grid)
    (T : α → Nat → Nat → Prop)
    (hstep : ∀ (S : Nat → Nat → Prop) (g : Grid) (x : α), GridInv len1 len2 S g →
      GridInv len1 len2 (fun i j => S i j ∨ T x i j) (step g x))
    (xs : List α) (S : Nat → Nat → Prop) (g : Grid) (h : GridInv len1 len2 S g) :
    GridInv len1 len2 (fun i j => S i j ∨ ∃ x ∈ xs, T x i j) (xs.foldl step g) := by
  induction xs generalizing S g with
  | nil => exact h.congr (by simp)
  | cons x xs ih =>
    simp only [List.foldl_cons]
    refine (ih _ _ (hstep S g x h)).congr ?_
    intro i j _ _
    simp only [List.mem_cons, exists_eq_or_imp]
    tauto

theorem GridInv.markPoint {len1 len2 : Nat} {S : Nat → Nat → Prop} {grid : Grid}
    (h : GridInv len1 len2 S grid) (upsample : Int) (point : DtwPathElement) :
    GridInv len1 len2
      (fun i j => S i j ∨ ∃ u ∈ forRange 0 upsample, ∃ v ∈ forRange 0 upsample,
        (i : Int) = point.i * upsample + u ∧ (j : Int) = point.j * upsample + v)
      (markPoint len1 len2 upsample grid point) := by
  unfold detail.markPoint
  refine GridInv.foldl _ (fun u i j => ∃ v ∈ forRange 0 upsample,
        (i : Int) = point.i * upsample + u ∧ (j : Int) = point.j * upsample + v) ?_ _ S grid h
  intro S' g u hg
  exact GridInv.foldl _ (fun v i j =>
        (i : Int) = point.i * upsample + u ∧ (j : Int) = point.j * upsample + v)
      (fun S'' g' v hg' => hg'.markCell _ _) _ S' g hg

theorem GridInv.highResExpandPath (pts : List DtwPathElement) (len1 len2 : Nat)
    (upsample : Int) :
    GridInv len1 len2
      (fun i j => ∃ point ∈ pts, ∃ u ∈ forRange 0 upsample, ∃ v ∈ forRange 0 upsample,
        (i : Int) = point.i * upsample + u ∧ (j : Int) = point.j * upsample + v)
      (highResExpandPath pts len1 len2 upsample) := by
  unfold detail.highResExpandPath
  refine (GridInv.foldl _ (fun point i j => ∃ u ∈ forRange 0 upsample,
      ∃ v ∈ forRange 0 upsample,
        (i : Int) = point.i * upsample + u ∧ (j : Int) = point.j * upsample + v)
      (fun S g point hg => hg.markPoint upsample point) pts _ _
      (GridInv.emptyGrid len1 len2)).congr ?_
  intro i j _ _
  simp

theorem mem_lowResExpandPath (low_res_path : Path) (radius : Int) (q : DtwPathElement) :
    q ∈ lowResExpandPath low_res_path radius ↔
      ∃ p ∈ low_res_path, ∃ di dj : Int, -radius ≤ di ∧ di ≤ radius ∧ -radius ≤ dj ∧
        dj ≤ radius ∧ q = { i := p.i + di, j := p.j + dj } := by
  simp only [lowResExpandPath, List.mem_flatMap, List.mem_map, mem_forRange]
  constructor
  · rintro ⟨p, hp, di, ⟨h1, h2⟩, dj, ⟨h3, h4⟩, rfl⟩
    exact ⟨p, hp, di, dj, h1, by omega, h3, by omega, rfl⟩
  · rintro ⟨p, hp, di, dj, h1, h2, h3, h4, rfl⟩
    exact ⟨p, hp, di, ⟨h1, by omega⟩, dj, ⟨h3, by omega⟩, rfl⟩

/-- The occupancy grid built by `expandResWindow` holds `1` exactly at the
cells of the upsampled radius-neighbourhood of the path. -/
theorem grid_spec (low_res_path : Path) (len1 len2 : Nat) (radius upsample : Int) :
    GridInv len1 len2 (fun i j => inNeighbourhood low_res_path radius upsample i j)
      (highResExpandPath (lowResExpandPath low_res_path radius) len1 len2 upsample) := by
  refine (GridInv.highResExpandPath _ len1 len2 upsample).congr ?_
  intro i j _ _
  simp only [mem_lowResExpandPath, mem_forRange, inNeighbourhood]
  constructor
  · rintro ⟨q, ⟨p, hp, di, dj, h1, h2, h3, h4, rfl⟩, u, ⟨hu0, hu1⟩, v, ⟨hv0, hv1⟩, hi, hj⟩
    exact ⟨p, hp, di, dj, u, v, h1, h2, h3, h4, hu0, hu1, hv0, hv1, hi, hj⟩
  · rintro ⟨p, hp, di, dj, u, v, h1, h2, h3, h4, hu0, hu1, hv0, hv1, hi, hj⟩
    exact ⟨_, ⟨p, hp, di, dj, h1, h2, h3, h4, rfl⟩, u, ⟨hu0, hu1⟩, v, ⟨hv0, hv1⟩, hi, hj⟩

end Projection

section Scan

open detail

theorem readCell_eq (grid : Grid) (i : Nat) (j : Int) :
    readCell grid i j =
      if j < 0 then .error .outOfRange
      else match cellAt grid i j.toNat with
        | none => .error .outOfRange
        | some v => .ok v := by
  unfold detail.readCell cellAt
  cases grid[i]? <;> simp

theorem readCell_neg (grid : Grid) (i : Nat) (j : Int) (h : j < 0) :
    readCell grid i j = .error .outOfRange := by
  simp [detail.readCell, h]

theorem readCell_inRange {len1 len2 : Nat} {S : Nat → Nat → Prop} {grid : Grid}
    (hg : GridInv len1 len2 S grid) (i : Nat) (j : Int) (hi : i < len1) (hj0 : 0 ≤ j)
    (hj : j < len2) :
    ∃ v, readCell grid i j = .ok v ∧ decide (v = 1) = gridAllowed grid i j := by
  have hsome : (cellAt grid i j.toNat).isSome := ((hg i j.toNat).1).mpr ⟨hi, by omega⟩
  obtain ⟨v, hv⟩ := Option.isSome_iff_exists.mp hsome
  refine ⟨v, ?_, ?_⟩
  · rw [readCell_eq, if_neg (by omega), hv]
  · simp only [gridAllowed, hv, hj0, decide_True, Bool.true_and]
    by_cases h1 : v = 1
    · subst h1; simp
    · have : ¬ (some v = some (1 : Int)) := fun h => h1 (Option.some.inj h)
      simp [h1, this]

theorem scanRow_run (grid : Grid) (i : Nat) (start_j : Int) (a : Int → Bool) (js : List Int)
    (hread : ∀ j ∈ js, ∃ v, readCell grid i j = .ok v ∧ decide (v = 1) = a j)
    (new_start_j : Int) (hn : 0 ≤ new_start_j) (window : Window) :
    scanRow grid i start_j js new_start_j window =
      .ok (new_start_j, window ++ (js.takeWhile a).map fun j => { i := (i : Int), j := j }) := by
  induction js generalizing window with
  | nil => simp [detail.scanRow]
  | cons j js ih =>
    obtain ⟨v, hv, hva⟩ := hread j (List.mem_cons_self _ _)
    have hrest : ∀ j' ∈ js, ∃ v, readCell grid i j' = .ok v ∧ decide (v = 1) = a j' :=
      fun j' hj' => hread j' (List.mem_cons_of_mem _ hj')
    simp only [detail.scanRow, hv]
    by_cases h1 : v = 1
    · have haj : a j = true := by rw [← hva]; simp [h1]
      simp only [h1, if_true, if_neg (not_lt.mpr hn), ih hrest, List.takeWhile_cons, haj,
        List.map_cons, List.append_assoc, List.singleton_append]
    · have haj : a j = false := by rw [← hva]; simp [h1]
      simp [h1, hn, List.takeWhile_cons, haj]

theorem scanRow_fresh (grid : Grid) (i : Nat) (start_j : Int) (hs : 0 ≤ start_j)
    (a : Int → Bool) (js : List Int)
    (hread : ∀ j ∈ js, ∃ v, readCell grid i j = .ok v ∧ decide (v = 1) = a j)
    (new_start_j : Int) (hn : new_start_j < 0) (window : Window) :
    scanRow grid i start_j js new_start_j window =
      .ok (if js.any a then start_j else new_start_j,
        window ++ (firstRun a js).map fun j => { i := (i : Int), j := j }) := by
  induction js generalizing window with
  | nil => simp [detail.scanRow, firstRun]
  | cons j js ih =>
    obtain ⟨v, hv, hva⟩ := hread j (List.mem_cons_self _ _)
    have hrest : ∀ j' ∈ js, ∃ v, readCell grid i j' = .ok v ∧ decide (v = 1) = a j' :=
      fun j' hj' => hread j' (List.mem_cons_of_mem _ hj')
    simp only [detail.scanRow, hv]
    by_cases h1 : v = 1
    · have haj : a j = true := by rw [← hva]; simp [h1]
      simp only [h1, if_true, if_pos hn, scanRow_run grid i start_j a js hrest start_j hs,
        firstRun, List.dropWhile_cons, haj, Bool.not_true, List.takeWhile_cons,
        List.map_cons, List.append_assoc, List.singleton_append, List.any_cons, Bool.true_or]
      simp [List.takeWhile_cons, haj]
    · have haj : a j = false := by rw [← hva]; simp [h1]
      simp only [h1, if_false, ge_iff_le, if_neg (not_le.mpr hn), ih hrest, firstRun,
        List.dropWhile_cons, haj, Bool.not_false, if_true, List.any_cons, Bool.false_or]

theorem forRange_neg_cons (s : Int) (len2 : Nat) (hs : s < 0) :
    ∃ js, forRange s len2 = s :: js := by
  unfold forRange
  obtain ⟨n, hn⟩ : ∃ n, ((len2 : Int) - s).toNat = n + 1 := ⟨((len2 : Int) - s).toNat - 1, by omega⟩
  rw [hn]
  exact ⟨_, rfl⟩

theorem scanRows_neg (grid : Grid) (len2 : Nat) (i : Nat) (rows : List Nat) (start_j : Int)
    (hs : start_j < 0) (window : Window) :
    scanRows grid len2 (i :: rows) start_j window = .error .outOfRange := by
  obtain ⟨js, hjs⟩ := forRange_neg_cons start_j len2 hs
  simp [detail.scanRows, hjs, detail.scanRow, readCell_neg grid i start_j hs]

theorem scanRow_zero {len1 len2 : Nat} {S : Nat → Nat → Prop} {grid : Grid}
    (hg : GridInv len1 len2 S grid) (i : Nat) (hi : i < len1) (window : Window) :
    scanRow grid i 0 (forRange 0 len2) (-1) window =
      .ok (if (forRange 0 len2).any (gridAllowed grid i) then 0 else -1,
        window ++ rowCells grid len2 i) := by
  refine scanRow_fresh grid i 0 le_rfl (gridAllowed grid i) _ ?_ (-1) (by decide) window
  intro j hj
  rw [mem_forRange] at hj
  exact readCell_inRange hg i j hi hj.1 hj.2

/-- A scan that starts at column 0 succeeds when every row but the last holds
an allowed cell, and it then collects the first run of every row. -/
theorem scanRows_zero_ok {len1 len2 : Nat} {S : Nat → Nat → Prop} {grid : Grid}
    (hg : GridInv len1 len2 S grid) (n k : Nat) (window : Window) (hk : k + n ≤ len1)
    (hrows : ∀ x, k ≤ x → x + 1 < k + n → (forRange 0 len2).any (gridAllowed grid x) = true) :
    scanRows grid len2 (List.range' k n) 0 window =
      .ok (window ++ (List.range' k n).flatMap (rowCells grid len2)) := by
  induction n generalizing k window with
  | zero => simp [detail.scanRows]
  | succ n ih =>
    rw [List.range'_succ]
    simp only [detail.scanRows, scanRow_zero hg k (by omega), List.flatMap_cons]
    by_cases hany : (forRange 0 len2).any (gridAllowed grid k) = true
    · simp only [hany, if_true]
      rw [ih (k + 1) _ (by omega) (fun x hx1 hx2 => hrows x (by omega) (by omega))]
      simp
    · cases n with
      | zero => simp [hany, detail.scanRows]
      | succ n => exact absurd (hrows k le_rfl (by omega)) hany

/-- A scan that starts at column 0 reads out of range when a row other than
the last holds no allowed cell. -/
theorem scanRows_zero_error {len1 len2 : Nat} {S : Nat → Nat → Prop} {grid : Grid}
    (hg : GridInv len1 len2 S grid) (n k : Nat) (window : Window) (hk : k + n ≤ len1)
    (hrow : ∃ x, k ≤ x ∧ x + 1 < k + n ∧ (forRange 0 len2).any (gridAllowed grid x) = false) :
    scanRows grid len2 (List.range' k n) 0 window = .error .outOfRange := by
  induction n generalizing k window with
  | zero => obtain ⟨x, h1, h2, _⟩ := hrow; omega
  | succ n ih =>
    rw [List.range'_succ]
    simp only [detail.scanRows, scanRow_zero hg k (by omega)]
    by_cases hany : (forRange 0 len2).any (gridAllowed grid k) = true
    · simp only [hany, if_true]
      apply ih (k + 1) _ (by omega)
      obtain ⟨x, h1, h2, h3⟩ := hrow
      have hxk : x ≠ k := by
        rintro rfl
        rw [h3] at hany
        exact absurd hany (by decide)
      exact ⟨x, by omega, by omega, h3⟩
    · cases n with
      | zero => obtain ⟨x, h1, h2, _⟩ := hrow; omega
      | succ n =>
        simp only [hany, if_false, List.range'_succ]
        exact scanRows_neg _ _ _ _ _ (by decide) _

end Scan

section Window

open detail

theorem mem_takeWhile_countFrom (a : Int → Bool) (n : Nat) (c j : Int) :
    j ∈ (countFrom c n).takeWhile a ↔
      c ≤ j ∧ j < c + n ∧ ∀ k, c ≤ k → k ≤ j → a k = true := by
  induction n generalizing c with
  | zero => simp [countFrom]; omega
  | succ n ih =>
    simp only [countFrom, List.takeWhile_cons]
    by_cases hc : a c = true
    · simp only [hc, if_true, List.mem_cons, ih]
      push_cast
      constructor
      · rintro (rfl | ⟨h1, h2, h3⟩)
        · refine ⟨le_rfl, by omega, fun k hk1 hk2 => ?_⟩
          have : k = j := by omega
          rw [this]; exact hc
        · refine ⟨by omega, by omega, fun k hk1 hk2 => ?_⟩
          by_cases hkc : k = c
          · rw [hkc]; exact hc
          · exact h3 k (by omega) hk2
      · rintro ⟨h1, h2, h3⟩
        by_cases hjc : j = c
        · exact Or.inl hjc
        · exact Or.inr ⟨by omega, by omega, fun k hk1 hk2 => h3 k (by omega) hk2⟩
    · have hcf : a c = false := by simpa using hc
      simp only [hcf, Bool.false_eq_true, if_false, List.not_mem_nil, false_iff]
      rintro ⟨h1, _, h3⟩
      exact hc (h3 c le_rfl h1)

/-- Membership in the first run of a row scanned from column `c`: the column
is allowed and no disallowed column lies between an allowed one and it. -/
theorem mem_firstRun_countFrom (a : Int → Bool) (n : Nat) (c j : Int) :
    j ∈ firstRun a (countFrom c n) ↔
      c ≤ j ∧ j < c + n ∧ a j = true ∧
        ∀ k1 k2, c ≤ k1 → k1 < k2 → k2 ≤ j → a k1 = true → a k2 = true := by
  induction n generalizing c with
  | zero => simp [countFrom, firstRun]; omega
  | succ n ih =>
    by_cases hc : a c = true
    · have hrun : firstRun a (countFrom c (n + 1)) = c :: (countFrom (c + 1) n).takeWhile a := by
        simp [firstRun, countFrom, List.dropWhile_cons, List.takeWhile_cons, hc]
      rw [hrun, List.mem_cons, mem_takeWhile_countFrom]
      push_cast
      constructor
      · rintro (rfl | ⟨h1, h2, h3⟩)
        · exact ⟨le_rfl, by omega, hc, fun k1 k2 h1 h2 h3 _ => by omega⟩
        · exact ⟨by omega, by omega, h3 j h1 le_rfl, fun k1 k2 hk1 hk2 hk3 _ =>
            h3 k2 (by omega) hk3⟩
      · rintro ⟨h1, h2, h3, h4⟩
        by_cases hjc : j = c
        · exact Or.inl hjc
        · exact Or.inr ⟨by omega, by omega, fun k hk1 hk2 => h4 c k le_rfl (by omega) hk2 hc⟩
    · have hrun : firstRun a (countFrom c (n + 1)) = firstRun a (countFrom (c + 1) n) := by
        simp [firstRun, countFrom, List.dropWhile_cons, hc]
      rw [hrun, ih]
      push_cast
      constructor
      · rintro ⟨h1, h2, h3, h4⟩
        refine ⟨by omega, by omega, h3, fun k1 k2 hk1 hk2 hk3 hk4 => ?_⟩
        by_cases hkc : k1 = c
        · rw [hkc] at hk4; exact absurd hk4 hc
        · exact h4 k1 k2 (by omega) hk2 hk3 hk4
      · rintro ⟨h1, h2, h3, h4⟩
        have hjc : j ≠ c := by
          rintro rfl; exact hc h3
        exact ⟨by omega, by omega, h3, fun k1 k2 hk1 hk2 hk3 hk4 =>
          h4 k1 k2 (by omega) hk2 hk3 hk4⟩

theorem gridAllowed_iff {len1 len2 : Nat} {S : Nat → Nat → Prop} {grid : Grid}
    (hg : GridInv len1 len2 S grid) (i : Nat) (j : Int) :
    gridAllowed grid i j = true ↔ 0 ≤ j ∧ i < len1 ∧ j < len2 ∧ S i j.toNat := by
  simp only [gridAllowed, Bool.and_eq_true, decide_eq_true_eq, beq_iff_eq, (hg i j.toNat).2]
  constructor
  · rintro ⟨h0, h1, h2, h3⟩; exact ⟨h0, h1, by omega, h3⟩
  · rintro ⟨h0, h1, h2, h3⟩; exact ⟨h0, h1, by omega, h3⟩

/-- On the grid built by `expandResWindow`, an entry is `1` exactly when the
cell is marked. -/
theorem gridAllowed_iff_marked (low_res_path : Path) (len1 len2 : Nat) (radius upsample : Int)
    (x : Nat) (y : Int) :
    gridAllowed
        (highResExpandPath (lowResExpandPath low_res_path radius) len1 len2 upsample) x y = true
      ↔ marked low_res_path len1 len2 radius upsample x y := by
  rw [gridAllowed_iff (grid_spec low_res_path len1 len2 radius upsample)]
  unfold marked
  constructor
  · rintro ⟨h0, h1, h2, h3⟩
    refine ⟨by omega, by omega, h0, h2, ?_⟩
    rwa [Int.toNat_of_nonneg h0] at h3
  · rintro ⟨_, h1, h0, h2, h3⟩
    refine ⟨h0, by omega, h2, ?_⟩
    rwa [Int.toNat_of_nonneg h0]

theorem any_gridAllowed_iff (low_res_path : Path) (len1 len2 : Nat) (radius upsample : Int)
    (x : Nat) :
    (forRange 0 len2).any (gridAllowed
        (highResExpandPath (lowResExpandPath low_res_path radius) len1 len2 upsample) x) = true
      ↔ ∃ y, marked low_res_path len1 len2 radius upsample x y := by
  simp only [List.any_eq_true, mem_forRange, gridAllowed_iff_marked]
  constructor
  · rintro ⟨y, _, h⟩; exact ⟨y, h⟩
  · rintro ⟨y, h⟩; exact ⟨y, ⟨h.2.2.1, h.2.2.2.1⟩, h⟩

/-- The scan of `expandResWindow` stays in range when every row of the target
grid other than the last holds a marked cell; the window is then the first run
of marked cells of every row. -/
theorem expandResWindow_ok (low_res_path : Path) (len1 len2 : Nat) (radius upsample : Int)
    (hrows : ∀ x : Nat, x + 1 < len1 → ∃ y, marked low_res_path len1 len2 radius upsample x y) :
    expandResWindow low_res_path len1 len2 radius upsample =
      .ok ((List.range len1).flatMap
        (rowCells (highResExpandPath (lowResExpandPath low_res_path radius) len1 len2 upsample)
          len2)) := by
  unfold detail.expandResWindow
  simp only [List.range_eq_range']
  rw [scanRows_zero_ok (grid_spec low_res_path len1 len2 radius upsample) len1 0 [] (by omega)]
  · simp
  · intro x _ hx
    exact (any_gridAllowed_iff _ _ _ _ _ x).mpr (hrows x (by omega))

/-- The scan of `expandResWindow` reads out of range when some row of the
target grid other than the last holds no marked cell. -/
theorem expandResWindow_error (low_res_path : Path) (len1 len2 : Nat) (radius upsample : Int)
    (hrow : ∃ x : Nat, x + 1 < len1 ∧
      ∀ y, ¬ marked low_res_path len1 len2 radius upsample x y) :
    expandResWindow low_res_path len1 len2 radius upsample = .error .outOfRange := by
  unfold detail.expandResWindow
  simp only [List.range_eq_range']
  apply scanRows_zero_error (grid_spec low_res_path len1 len2 radius upsample) len1 0 []
    (by omega)
  obtain ⟨x, hx, hno⟩ := hrow
  refine ⟨x, by omega, by omega, ?_⟩
  rw [Bool.eq_false_iff]
  intro hany
  obtain ⟨y, hy⟩ := (any_gridAllowed_iff _ _ _ _ _ x).mp hany
  exact hno y hy

/-- When `expandResWindow` returns, a cell is in the window exactly when it is
marked and no unmarked column of its row lies between a marked column and
it. -/
theorem mem_expandResWindow (low_res_path : Path) (len1 len2 : Nat) (radius upsample : Int)
    (window : Window)
    (h : expandResWindow low_res_path len1 len2 radius upsample = .ok window)
    (c : DtwPathElement) :
    c ∈ window ↔
      marked low_res_path len1 len2 radius upsample c.i c.j ∧
        ∀ k1 k2, 0 ≤ k1 → k1 < k2 → k2 ≤ c.j →
          marked low_res_path len1 len2 radius upsample c.i k1 →
          marked low_res_path len1 len2 radius upsample c.i k2 := by
  by_cases hrows : ∀ x : Nat, x + 1 < len1 →
      ∃ y, marked low_res_path len1 len2 radius upsample x y
  · rw [expandResWindow_ok _ _ _ _ _ hrows] at h
    injection h with h
    subst h
    simp only [List.mem_flatMap, List.mem_range, rowCells, List.mem_map, forRange,
      mem_firstRun_countFrom, gridAllowed_iff_marked]
    constructor
    · rintro ⟨x, _, j, ⟨_, _, h3, h4⟩, rfl⟩
      exact ⟨h3, fun k1 k2 hk1 hk2 hk3 hk4 => h4 k1 k2 hk1 hk2 hk3 hk4⟩
    · rintro ⟨h3, h4⟩
      obtain ⟨hx0, hx1, hy0, hy1, _⟩ := id h3
      refine ⟨c.i.toNat, by omega, c.j, ?_, ?_⟩
      · rw [Int.toNat_of_nonneg hx0]
        exact ⟨hy0, by simp; omega, h3, fun k1 k2 hk1 hk2 hk3 hk4 => h4 k1 k2 hk1 hk2 hk3 hk4⟩
      · rw [Int.toNat_of_nonneg hx0]
  · push_neg at hrows
    obtain ⟨x, hx, hno⟩ := hrows
    rw [expandResWindow_error _ _ _ _ _ ⟨x, hx, hno⟩] at h
    exact absurd h (by simp)

end Window

section AlignmentPaths

open detail

theorem pathStep_getD {path : Path} (h : isAlignmentPath path) (d : DtwPathElement) (k : Nat)
    (hk : k + 1 < path.length) : pathStep (path.getD k d) (path.getD (k + 1) d) := by
  have h' := List.chain'_iff_get.mp h k (by omega)
  simpa [List.getD_eq_getElem, hk, Nat.lt_of_succ_lt hk] using h'

theorem path_mono {path : Path} (h : isAlignmentPath path) (d : DtwPathElement) (a b : Nat)
    (hab : a ≤ b) (hb : b < path.length) :
    (path.getD a d).i ≤ (path.getD b d).i ∧ (path.getD a d).j ≤ (path.getD b d).j := by
  induction b with
  | zero =>
    have : a = 0 := by omega
    subst this
    exact ⟨le_rfl, le_rfl⟩
  | succ b ih =>
    by_cases hab' : a = b + 1
    · subst hab'
      exact ⟨le_rfl, le_rfl⟩
    · have ih' := ih (by omega) (by omega)
      have hs := pathStep_getD h d b hb
      unfold pathStep at hs
      constructor <;> omega

theorem path_intermediate {path : Path} (h : isAlignmentPath path) (d : DtwPathElement)
    (a b : Nat) (hab : a ≤ b) (hb : b < path.length) (t : Int)
    (h1 : (path.getD a d).j ≤ t) (h2 : t ≤ (path.getD b d).j) :
    ∃ c, a ≤ c ∧ c ≤ b ∧ (path.getD c d).j = t := by
  induction b with
  | zero =>
    have : a = 0 := by omega
    subst this
    exact ⟨0, le_rfl, le_rfl, by omega⟩
  | succ b ih =>
    by_cases hab' : a = b + 1
    · subst hab'
      exact ⟨b + 1, le_rfl, le_rfl, by omega⟩
    · by_cases ht : t ≤ (path.getD b d).j
      · obtain ⟨c, hc1, hc2, hc3⟩ := ih (by omega) (by omega) ht
        exact ⟨c, hc1, by omega, hc3⟩
      · have hs := pathStep_getD h d b hb
        unfold pathStep at hs
        exact ⟨b + 1, by omega, le_rfl, by omega⟩

theorem mem_iff_getD (path : Path) (d p : DtwPathElement) :
    p ∈ path ↔ ∃ k, k < path.length ∧ path.getD k d = p := by
  rw [List.mem_iff_getElem]
  constructor
  · rintro ⟨k, hk, rfl⟩
    exact ⟨k, hk, by simp [List.getD_eq_getElem, hk]⟩
  · rintro ⟨k, hk, rfl⟩
    exact ⟨k, hk, by simp [List.getD_eq_getElem, hk]⟩

/-- On an alignment path the cells within `radius` of a coarse row `X` cover a
contiguous range of coarse columns. -/
theorem coarse_row_convex {path : Path} (h : isAlignmentPath path) (radius X Y1 Y2 Y3 : Int)
    (p1 p3 : DtwPathElement) (hp1 : p1 ∈ path) (hp3 : p3 ∈ path)
    (hX1 : p1.i - radius ≤ X ∧ X ≤ p1.i + radius) (hX3 : p3.i - radius ≤ X ∧ X ≤ p3.i + radius)
    (hY1 : p1.j - radius ≤ Y1 ∧ Y1 ≤ p1.j + radius)
    (hY3 : p3.j - radius ≤ Y3 ∧ Y3 ≤ p3.j + radius)
    (h12 : Y1 ≤ Y2) (h23 : Y2 ≤ Y3) :
    ∃ q ∈ path, (q.i - radius ≤ X ∧ X ≤ q.i + radius) ∧
      (q.j - radius ≤ Y2 ∧ Y2 ≤ q.j + radius) := by
  by_cases hc1 : p1.j - radius ≤ Y2 ∧ Y2 ≤ p1.j + radius
  · exact ⟨p1, hp1, hX1, hc1⟩
  by_cases hc3 : p3.j - radius ≤ Y2 ∧ Y2 ≤ p3.j + radius
  · exact ⟨p3, hp3, hX3, hc3⟩
  have d : DtwPathElement := p1
  obtain ⟨a1, ha1, rfl⟩ := (mem_iff_getD path d p1).mp hp1
  obtain ⟨a3, ha3, rfl⟩ := (mem_iff_getD path d p3).mp hp3
  have hlt1 : (path.getD a1 d).j + radius < Y2 := by omega
  have hlt3 : Y2 < (path.getD a3 d).j - radius := by omega
  have hr : 0 ≤ radius := by omega
  have h13 : a1 ≤ a3 := by
    by_contra hcon
    have := (path_mono h d a3 a1 (by omega) ha1).2
    omega
  obtain ⟨c, hc1', hc2', hc3'⟩ := path_intermediate h d a1 a3 h13 ha3 Y2 (by omega) (by omega)
  have hm1 := (path_mono h d a1 c hc1' (by omega)).1
  have hm3 := (path_mono h d c a3 hc2' ha3).1
  refine ⟨path.getD c d, (mem_iff_getD path d _).mpr ⟨c, by omega, rfl⟩, ⟨by omega, by omega⟩,
    by omega, by omega⟩

theorem block_div {U A u x : Int} (hU : 0 < U) (hu0 : 0 ≤ u) (hu1 : u < U)
    (hx : x = A * U + u) : x / U = A := by
  subst hx
  rw [add_comm, Int.add_mul_ediv_right _ _ (by omega), Int.ediv_eq_zero_of_lt hu0 hu1]
  simp

/-- In the neighbourhood of an alignment path the marked columns of a row are
contiguous. -/
theorem marked_row_convex {path : Path} (h : isAlignmentPath path) (len1 len2 : Nat)
    (radius upsample : Int) (hU : 1 ≤ upsample) (x k1 k2 k3 : Int)
    (hm1 : marked path len1 len2 radius upsample x k1)
    (hm3 : marked path len1 len2 radius upsample x k3)
    (h12 : k1 ≤ k2) (h23 : k2 ≤ k3) :
    marked path len1 len2 radius upsample x k2 := by
  obtain ⟨hx0, hx1, hk10, hk11, p1, hp1, di1, dj1, u1, v1, a1, a2, a3, a4, a5, a6, a7, a8, a9,
    a10⟩ := hm1
  obtain ⟨_, _, hk30, hk31, p3, hp3, di3, dj3, u3, v3, b1, b2, b3, b4, b5, b6, b7, b8, b9,
    b10⟩ := hm3
  have hUpos : 0 < upsample := by omega
  have hX1 : x / upsample = p1.i + di1 := block_div hUpos a5 a6 a9
  have hX3 : x / upsample = p3.i + di3 := block_div hUpos b5 b6 b9
  have hY1 : k1 / upsample = p1.j + dj1 := block_div hUpos a7 a8 a10
  have hY3 : k3 / upsample = p3.j + dj3 := block_div hUpos b7 b8 b10
  have hd12 : k1 / upsample ≤ k2 / upsample := Int.ediv_le_ediv hUpos h12
  have hd23 : k2 / upsample ≤ k3 / upsample := Int.ediv_le_ediv hUpos h23
  obtain ⟨q, hq, hqX, hqY⟩ := coarse_row_convex h radius (x / upsample) (k1 / upsample)
    (k2 / upsample) (k3 / upsample) p1 p3 hp1 hp3 (by omega) (by omega) (by omega) (by omega)
    hd12 hd23
  refine ⟨hx0, hx1, by omega, by omega, q, hq, x / upsample - q.i, k2 / upsample - q.j, u1,
    k2 % upsample, by omega, by omega, by omega, by omega, a5, a6,
    Int.emod_nonneg _ (by omega), Int.emod_lt_of_pos _ hUpos, ?_, ?_⟩
  · rw [hX1]; rw [a9]; ring
  · have := Int.ediv_add_emod k2 upsample
    have e : q.j + (k2 / upsample - q.j) = k2 / upsample := by ring
    rw [e]
    linarith [mul_comm upsample (k2 / upsample)]

end AlignmentPaths

section WindowClaims

open detail

/-- Every in-bounds cell of the `upsample × upsample` block under a path cell
is marked, for a non-negative radius. -/
theorem block_marked (path : Path) (len1 len2 : Nat) (radius upsample : Int) (hr : 0 ≤ radius)
    (p : DtwPathElement) (hp : p ∈ path) (u v : Int) (hu0 : 0 ≤ u) (hu1 : u < upsample)
    (hv0 : 0 ≤ v) (hv1 : v < upsample)
    (hx0 : 0 ≤ p.i * upsample + u) (hx1 : p.i * upsample + u < len1)
    (hy0 : 0 ≤ p.j * upsample + v) (hy1 : p.j * upsample + v < len2) :
    marked path len1 len2 radius upsample (p.i * upsample + u) (p.j * upsample + v) :=
  ⟨hx0, hx1, hy0, hy1, p, hp, 0, 0, u, v, by omega, hr, by omega, hr, hu0, hu1, hv0, hv1,
    by simp, by simp⟩

/-- Projection of a one-cell path with radius 0, when the scan stays in range:
the window holds exactly the in-bounds cells of the `upsample × upsample` block
at the upsampled position of the cell. -/
theorem expandResWindow_single_cell (a b : Int) (len1 len2 : Nat) (upsample : Int)
    (window : Window)
    (h : expandResWindow [{ i := a, j := b }] len1 len2 0 upsample = .ok window)
    (c : DtwPathElement) :
    c ∈ window ↔
      (0 ≤ c.i ∧ c.i < len1 ∧ 0 ≤ c.j ∧ c.j < len2) ∧
      ∃ di dj : Int, 0 ≤ di ∧ di < upsample ∧ 0 ≤ dj ∧ dj < upsample ∧
        c.i = a * upsample + di ∧ c.j = b * upsample + dj := by
  have hm : ∀ x y : Int, marked [{ i := a, j := b }] len1 len2 0 upsample x y ↔
      (0 ≤ x ∧ x < len1 ∧ 0 ≤ y ∧ y < len2) ∧
      ∃ di dj : Int, 0 ≤ di ∧ di < upsample ∧ 0 ≤ dj ∧ dj < upsample ∧
        x = a * upsample + di ∧ y = b * upsample + dj := by
    intro x y
    simp only [marked, inNeighbourhood, List.mem_singleton, exists_eq_left, neg_zero]
    constructor
    · rintro ⟨h1, h2, h3, h4, di, dj, u, v, e1, e2, e3, e4, hu0, hu1, hv0, hv1, hx, hy⟩
      have hdi : di = 0 := by omega
      have hdj : dj = 0 := by omega
      subst hdi hdj
      exact ⟨⟨h1, h2, h3, h4⟩, u, v, hu0, hu1, hv0, hv1, by simpa using hx, by simpa using hy⟩
    · rintro ⟨⟨h1, h2, h3, h4⟩, u, v, hu0, hu1, hv0, hv1, hx, hy⟩
      exact ⟨h1, h2, h3, h4, 0, 0, u, v, le_rfl, le_rfl, le_rfl, le_rfl, hu0, hu1, hv0, hv1,
        by simpa using hx, by simpa using hy⟩
  rw [mem_expandResWindow _ _ _ _ _ window h c]
  constructor
  · rintro ⟨hc, _⟩
    exact (hm _ _).mp hc
  · intro hc
    refine ⟨(hm _ _).mpr hc, fun k1 k2 hk1 hk2 hk3 hk4 => ?_⟩
    rw [hm] at hk4 ⊢
    obtain ⟨hb, di, dj, h1, h2, h3, h4, h5, h6⟩ := hc
    obtain ⟨hb', di', dj', g1, g2, g3, g4, g5, g6⟩ := hk4
    exact ⟨⟨hb.1, hb.2.1, by omega, by omega⟩, di, k2 - b * upsample, h1, h2, by omega,
      by omega, h5, by omega⟩

/-- C8: the projection of the one-cell path `[(0, 0)]` with radius 0 and
upsample 2 onto a 4 × 4 grid has no defined result: rows 0 and 1 give the
block, row 2 holds no allowed cell, so `start_j` becomes `-1`, and the scan of
row 3 reads `high_res_expand_path[3][-1]`.  The claim promises the window
`{(0, 0), (0, 1), (1, 0), (1, 1)}`. -/
theorem expandResWindow_single_cell_out_of_range :
    expandResWindow [{ i := 0, j := 0 }] 4 4 0 2 = .error .outOfRange := by
  rfl

/-- C9 fails as stated: for the path `[(0, 0), (0, 4)]`, radius 1, upsample 1
and a 2 × 6 grid, the scan of row 0 stops at the unmarked column 2, so the
window misses the path cell `(0, 4)` itself. -/
theorem expandResWindow_superset_counterexample :
    ({ i := 0, j := 4 } : DtwPathElement) ∈ ([{ i := 0, j := 0 }, { i := 0, j := 4 }] : Path) ∧
    (0 : Int) < 1 ∧ (1 : Int) ≤ 1 ∧
    expandResWindow [{ i := 0, j := 0 }, { i := 0, j := 4 }] 2 6 1 1 =
      .ok [{ i := 0, j := 0 }, { i := 0, j := 1 }, { i := 1, j := 0 }, { i := 1, j := 1 }] ∧
    ({ i := 0 * 1 + 0, j := 4 * 1 + 0 } : DtwPathElement) ∉
      ([{ i := 0, j := 0 }, { i := 0, j := 1 }, { i := 1, j := 0 }, { i := 1, j := 1 }] :
        Window) := by
  refine ⟨by decide, by decide, by decide, by rfl, by decide⟩

/-- C9, amended: for an alignment path (consecutive cells one step apart),
radius > 0 and upsample >= 1, when every row of the target grid other than the
last holds a marked cell, `expandResWindow` returns a window that contains,
for every path cell `(a, b)`, every cell `(a U + di, b U + dj)` with
`0 <= di, dj < U` lying inside the target grid. -/
theorem expandResWindow_superset (path : Path) (len1 len2 : Nat) (radius upsample : Int)
    (hpath : isAlignmentPath path) (hr : 0 < radius) (hU : 1 ≤ upsample)
    (hrows : ∀ x : Nat, x + 1 < len1 → ∃ y, marked path len1 len2 radius upsample x y) :
    ∃ window, expandResWindow path len1 len2 radius upsample = .ok window ∧
      ∀ p ∈ path, ∀ di dj : Int, 0 ≤ di → di < upsample → 0 ≤ dj → dj < upsample →
        0 ≤ p.i * upsample + di → p.i * upsample + di < len1 →
        0 ≤ p.j * upsample + dj → p.j * upsample + dj < len2 →
        ({ i := p.i * upsample + di, j := p.j * upsample + dj } : DtwPathElement) ∈ window := by
  refine ⟨_, expandResWindow_ok path len1 len2 radius upsample hrows, ?_⟩
  intro p hp di dj hd0 hd1 he0 he1 hx0 hx1 hy0 hy1
  rw [mem_expandResWindow _ _ _ _ _ _ (expandResWindow_ok path len1 len2 radius upsample hrows)]
  have hm := block_marked path len1 len2 radius upsample (le_of_lt hr) p hp di dj hd0 hd1 he0
    he1 hx0 hx1 hy0 hy1
  exact ⟨hm, fun k1 k2 _ hk2 hk3 hk4 =>
    marked_row_convex hpath len1 len2 radius upsample hU _ k1 k2 _ hk4 hm (le_of_lt hk2) hk3⟩

theorem expandResWindow_superset_witness :
    isAlignmentPath [{ i := 0, j := 0 }, { i := 1, j := 1 }] ∧ (0 : Int) < 1 ∧ (1 : Int) ≤ 2 ∧
    (∀ x : Nat, x + 1 < 4 →
      ∃ y, marked [{ i := 0, j := 0 }, { i := 1, j := 1 }] 4 4 1 2 x y) ∧
    ∃ window, expandResWindow [{ i := 0, j := 0 }, { i := 1, j := 1 }] 4 4 1 2 = .ok window ∧
      ∀ p ∈ ([{ i := 0, j := 0 }, { i := 1, j := 1 }] : Path), ∀ di dj : Int,
        0 ≤ di → di < 2 → 0 ≤ dj → dj < 2 →
        0 ≤ p.i * 2 + di → p.i * 2 + di < (4 : Nat) →
        0 ≤ p.j * 2 + dj → p.j * 2 + dj < (4 : Nat) →
        ({ i := p.i * 2 + di, j := p.j * 2 + dj } : DtwPathElement) ∈ window :=
  have h1 : isAlignmentPath [{ i := 0, j := 0 }, { i := 1, j := 1 }] := by
    simp [isAlignmentPath, pathStep]
  have h2 : ∀ x : Nat, x + 1 < 4 →
      ∃ y, marked [{ i := 0, j := 0 }, { i := 1, j := 1 }] 4 4 1 2 x y := fun x hx => by
    refine ⟨0, by omega, by omega, le_rfl, by decide, { i := 0, j := 0 }, by simp,
      (x : Int) / 2, 0, (x : Int) % 2, 0, ?_⟩
    simp only
    omega
  ⟨h1, by decide, by decide, h2,
    expandResWindow_superset [{ i := 0, j := 0 }, { i := 1, j := 1 }] 4 4 1 2 h1 (by decide)
      (by decide) h2⟩

/-- C10 fails as stated: the one-cell path `[(2, 2)]` with radius 0 and
upsample 1 projects onto a 1 × 1 grid as the empty window, because the guard of
line 36 drops every cell outside the grid. -/
theorem expandResWindow_nonempty_counterexample :
    ([{ i := 2, j := 2 }] : Path) ≠ [] ∧ (0 : Int) ≤ 0 ∧ (1 : Int) ≤ 1 ∧
    expandResWindow [{ i := 2, j := 2 }] 1 1 0 1 = .ok [] := by
  refine ⟨by decide, by decide, by decide, by rfl⟩

/-- C10, amended: when the upsampled radius-neighbourhood of the path holds a
cell of the target grid, and holds one in every row other than the last,
`expandResWindow` returns a non-empty window. -/
theorem expandResWindow_nonempty (path : Path) (len1 len2 : Nat) (radius upsample : Int)
    (hsome : ∃ x y, marked path len1 len2 radius upsample x y)
    (hrows : ∀ x : Nat, x + 1 < len1 → ∃ y, marked path len1 len2 radius upsample x y) :
    ∃ window, expandResWindow path len1 len2 radius upsample = .ok window ∧ window ≠ [] := by
  refine ⟨_, expandResWindow_ok path len1 len2 radius upsample hrows, ?_⟩
  obtain ⟨x, y, hxy⟩ := hsome
  obtain ⟨y0, hy0, hmin⟩ := Int.exists_least_of_bdd (P := fun y => marked path len1 len2 radius upsample x y)
    ⟨0, fun z hz => hz.2.2.1⟩ ⟨y, hxy⟩
  have hmem : ({ i := x, j := y0 } : DtwPathElement) ∈
      (List.range len1).flatMap
        (rowCells (highResExpandPath (lowResExpandPath path radius) len1 len2 upsample) len2) := by
    rw [mem_expandResWindow _ _ _ _ _ _
      (expandResWindow_ok path len1 len2 radius upsample hrows)]
    refine ⟨hy0, fun k1 k2 _ hk2 hk3 hk4 => ?_⟩
    have hk3' : k2 ≤ y0 := hk3
    have := hmin k1 hk4
    omega
  exact List.ne_nil_of_mem hmem

theorem expandResWindow_nonempty_witness :
    (∃ x y, marked [{ i := 0, j := 0 }] 2 2 1 2 x y) ∧
    (∀ x : Nat, x + 1 < 2 → ∃ y, marked [{ i := 0, j := 0 }] 2 2 1 2 x y) ∧
    ∃ window, expandResWindow [{ i := 0, j := 0 }] 2 2 1 2 = .ok window ∧ window ≠ [] :=
  have h1 : ∃ x y, marked [{ i := 0, j := 0 }] 2 2 1 2 x y :=
    ⟨0, 0, le_rfl, by decide, le_rfl, by decide, { i := 0, j := 0 }, by simp,
      0, 0, 0, 0, by decide, by decide, by decide, by decide, le_rfl, by decide, le_rfl,
      by decide, by simp, by simp⟩
  have h2 : ∀ x : Nat, x + 1 < 2 → ∃ y, marked [{ i := 0, j := 0 }] 2 2 1 2 x y :=
    fun x hx => ⟨0, by omega, by omega, le_rfl, by decide, { i := 0, j := 0 }, by simp,
      0, 0, x, 0, by decide, by decide, by decide, by decide, by omega, by omega, le_rfl,
      by decide, by simp, by simp⟩
  ⟨h1, h2, expandResWindow_nonempty [{ i := 0, j := 0 }] 2 2 1 2 h1 h2⟩

end WindowClaims

section Summarizer

open detail

variable {K : Type} [LinearOrderedField K]

theorem length_countFrom (lo : Int) (n : Nat) : (countFrom lo n).length = n := by
  induction n generalizing lo with
  | zero => rfl
  | succ n ih => simp [countFrom, ih]

theorem length_forRange (lo hi : Int) : (forRange lo hi).length = (hi - lo).toNat := by
  simp [forRange, length_countFrom]

theorem length_normalizeFeatureVector (m : Libm K) (vec : SpeechTsElem K) :
    (normalizeFeatureVector m vec).length = vec.length := by
  simp [detail.normalizeFeatureVector]

theorem addScaled_ok (h : Dbl K) (features cent_i : SpeechTsElem K)
    (hlen : features.length = cent_i.length) :
    ∃ acc, addScaled h features cent_i = .ok acc ∧ acc.length = cent_i.length := by
  refine ⟨List.zipWith (fun c f => c.add (h.mul f)) cent_i features, ?_, ?_⟩
  · simp [detail.addScaled, hlen]
  · simp [hlen]

theorem accumulate_ok (m : Libm K) (quant_ts : SpeechTs K) (window downsample half_window i : Int)
    (feature_count : Nat) (huni : ∀ v ∈ quant_ts, v.length = feature_count) (js : List Int)
    (cent_i : SpeechTsElem K) (hc : cent_i.length = feature_count) :
    ∃ acc, accumulate m quant_ts window downsample half_window i js cent_i = .ok acc ∧
      acc.length = feature_count := by
  induction js generalizing cent_i with
  | nil => exact ⟨cent_i, rfl, hc⟩
  | cons j js ih =>
    simp only [detail.accumulate]
    split_ifs with hn
    · obtain ⟨features, hf⟩ : ∃ features,
          quant_ts[(i * downsample + j - half_window).toNat]? = some features :=
        ⟨_, List.getElem?_eq_getElem hn.2⟩
      have hfl : features.length = feature_count :=
        huni features (List.getElem?_mem hf)
      obtain ⟨acc, hacc, hal⟩ := addScaled_ok (hannValue m window j) features cent_i
        (by rw [hfl, hc])
      simp only [hf, hacc]
      exact ih acc (by rw [hal, hc])
    · exact ih cent_i hc

theorem centRow_ok (m : Libm K) (quant_ts : SpeechTs K) (window downsample half_window : Int)
    (feature_count : Nat) (huni : ∀ v ∈ quant_ts, v.length = feature_count) (i : Int) :
    ∃ row, centRow m quant_ts window downsample half_window feature_count i = .ok row ∧
      row.length = feature_count := by
  obtain ⟨acc, hacc, hal⟩ := accumulate_ok m quant_ts window downsample half_window i
    feature_count huni (forRange 0 window) (List.replicate feature_count (Dbl.fin 0))
    (by simp)
  exact ⟨normalizeFeatureVector m acc, by simp [detail.centRow, hacc],
    by rw [length_normalizeFeatureVector, hal]⟩

theorem centRows_ok (m : Libm K) (quant_ts : SpeechTs K) (window downsample half_window : Int)
    (feature_count : Nat) (huni : ∀ v ∈ quant_ts, v.length = feature_count) (rows : List Int) :
    ∃ cent, centRows m quant_ts window downsample half_window feature_count rows = .ok cent ∧
      cent.length = rows.length ∧ ∀ v ∈ cent, v.length = feature_count := by
  induction rows with
  | nil => exact ⟨[], rfl, rfl, by simp⟩
  | cons i rows ih =>
    obtain ⟨row, hrow, hrl⟩ := centRow_ok m quant_ts window downsample half_window
      feature_count huni i
    obtain ⟨cent, hcent, hcl, hcv⟩ := ih
    refine ⟨row :: cent, by simp [detail.centRows, hrow, hcent], by simp [hcl], ?_⟩
    intro v hv
    rcases List.mem_cons.mp hv with rfl | hv
    · exact hrl
    · exact hcv v hv

/-- On a non-empty series of uniform dimensionality, with a non-negative
window and a positive downsample factor, `computeCENT` returns `cent_size`
vectors of the dimensionality of the series. -/
theorem computeCENT_ok (m : Libm K) (ts : SpeechTs K) (window downsample : Int)
    (hne : ts ≠ []) (huni : ∀ v ∈ ts, ∀ w ∈ ts, v.length = w.length)
    (hw : 0 ≤ window) (hd : 0 < downsample) :
    ∃ cent, computeCENT m ts window downsample = .ok cent ∧
      (cent.length : Int) = centSize ts.length downsample ∧
      ∀ v ∈ cent, ∀ w ∈ ts, v.length = w.length := by
  obtain ⟨first, rest, rfl⟩ := List.exists_cons_of_ne_nil hne
  have hq : quantizeFeatures (first :: rest) =
      quantizeFeatureVector first :: (rest.map quantizeFeatureVector) := by
    simp [quantizeFeatures_eq_map]
  have hqu : ∀ v ∈ quantizeFeatures (first :: rest), v.length = first.length := by
    intro v hv
    rw [quantizeFeatures_eq_map, List.mem_map] at hv
    obtain ⟨w, hw', rfl⟩ := hv
    rw [quantizeFeatureVector_eq_map, List.length_map]
    exact huni w hw' first (List.mem_cons_self _ _)
  obtain ⟨cent, hcent, hcl, hcv⟩ := centRows_ok m (quantizeFeatures (first :: rest)) window
    downsample (halfWindow window) first.length hqu
    (forRange 0 (centSize (quantizeFeatures (first :: rest)).length downsample))
  have hql : (quantizeFeatures (first :: rest)).length = (first :: rest).length := by
    simp [quantizeFeatures_eq_map]
  refine ⟨cent, ?_, ?_, ?_⟩
  · unfold detail.computeCENT
    simp only [if_neg (not_lt.mpr hw), if_neg (ne_of_gt hd), if_neg (not_lt.mpr (le_of_lt hd))]
    rw [hq] at hcent ⊢
    simp only [quantizeFeatureVector_eq_map, List.length_map] at hcent ⊢
    exact hcent
  · rw [hcl, length_forRange, hql]
    simp [detail.centSize]
  · intro v hv w hw'
    rw [hcv v hv]
    exact huni first (List.mem_cons_self _ _) w hw'

/-- The number of vectors returned on a series of `n` copies of one vector. -/
theorem computeCENT_replicate (m : Libm K) (n : Nat) (hn : 0 < n) (vec : SpeechTsElem K)
    (window downsample : Int) (hw : 0 ≤ window) (hd : 0 < downsample) :
    ∃ cent, computeCENT m (List.replicate n vec) window downsample = .ok cent ∧
      (cent.length : Int) = centSize n downsample := by
  obtain ⟨cent, hcent, hcl, _⟩ := computeCENT_ok m (List.replicate n vec) window downsample
    (by
      intro h
      have := congrArg List.length h
      simp at this
      omega)
    (by
      intro v hv w hw
      rw [List.eq_of_mem_replicate hv, List.eq_of_mem_replicate hw])
    hw hd
  rw [List.length_replicate] at hcl
  exact ⟨cent, hcent, hcl⟩

/-- C6: on the series of 16777219 one-component vectors, with window 3 and
downsample 2, `computeCENT` returns 8388610 vectors, one more than
`floor(16777219 / 2) = 8388609`: line 108 casts the length to `float`, and
16777219 rounds to 16777220. -/
theorem computeCENT_length_rounding (m : Libm K) :
    ∃ cent, computeCENT m (List.replicate 16777219 [Dbl.fin 1]) 3 2 = .ok cent ∧
      cent.length = 8388610 ∧ 16777219 / 2 = 8388609 := by
  obtain ⟨cent, hcent, hcl⟩ := computeCENT_replicate m 16777219 (by decide) [Dbl.fin 1] 3 2
    (by decide) (by decide)
  have h : centSize 16777219 2 = ((8388610 : Nat) : Int) := by decide
  rw [h] at hcl
  exact ⟨cent, hcent, Int.ofNat_inj.mp hcl, by decide⟩

/-- C7: on the series `[[1], [1]]` with window 1 and downsample 2,
`computeCENT` returns the single vector `[NaN]`: line 105 computes the Hann
phase `2 * PI * 0 / (window - 1)` as `0 / 0`, the kernel value is NaN, and so
are the accumulated component and the normalized one.  The accumulated vector
is not the zero vector, and its normalization does not have sum of squares 1. -/
theorem computeCENT_window_one_nan (m : Libm K) :
    computeCENT m [[Dbl.fin 1], [Dbl.fin 1]] 1 2 = .ok [[Dbl.nan]] ∧
    accumulate m (quantizeFeatures [[Dbl.fin 1], [Dbl.fin 1]]) 1 2 (halfWindow 1) 0
      (forRange 0 1) (List.replicate 1 (Dbl.fin 0)) = .ok [Dbl.nan] ∧
    ([Dbl.nan] : SpeechTsElem K) ≠ [Dbl.fin 0] ∧
    sumSquares ([Dbl.nan] : SpeechTsElem K) ≠ Dbl.fin 1 := by
  have h1 : centSize 2 2 = 1 := by decide
  have h2 : halfWindow 1 = 0 := by decide
  have h3 : forRange 0 1 = [0] := by decide
  refine ⟨?_, ?_, by simp, ?_⟩
  · simp [detail.computeCENT, detail.quantizeFeatures, detail.quantizeFeatureVector,
      detail.quantizeElem, Dbl.ge, h1, h2, h3, detail.centRows, detail.centRow,
      detail.accumulate, detail.addScaled, detail.hannValue, Dbl.div, Dbl.sub, Dbl.mul,
      Dbl.add, Dbl.cos, detail.normalizeFeatureVector, detail.sumSquares, Dbl.sqrt]
  · simp [detail.quantizeFeatures, detail.quantizeFeatureVector,
      detail.quantizeElem, Dbl.ge, h2, h3, detail.accumulate, detail.addScaled,
      detail.hannValue, Dbl.div, Dbl.sub, Dbl.mul, Dbl.add, Dbl.cos]
  · simp [detail.sumSquares, Dbl.add, Dbl.mul]

end Summarizer

section Validation

open detail

variable {K : Type} [LinearOrderedField K]

theorem toSizeT_of_int (x : Int) (h0 : 0 ≤ x) (h1 : x < 2 ^ 31) : (toSizeT x : Int) = x := by
  unfold toSizeT
  rw [Int.toNat_of_nonneg (Int.emod_nonneg _ (by norm_num))]
  exact Int.emod_eq_of_lt h0 (by omega)

/-- The recursive step rejects an invalid entry once the recursion reaches it:
every entry before it is valid and summarizes both series to at least
`radius + 2` vectors. -/
theorem recursiveStep_invalid_reached (E : Engine K) (m : Libm K) (ts1 ts2 : SpeechTs K)
    (radius : Int) (hr0 : 0 ≤ radius + 2) (hr1 : radius + 2 < 2 ^ 31)
    (pre : List CentParam) (bad : CentParam) (post : List CentParam)
    (hbad : bad.window < 1 ∨ bad.downsample < 2)
    (hpre : ∀ p ∈ pre, 1 ≤ p.window ∧ 2 ≤ p.downsample ∧
      ∃ s1 s2, computeCENT m ts1 p.window p.downsample = .ok s1 ∧
        computeCENT m ts2 p.window p.downsample = .ok s2 ∧
        radius + 2 ≤ s1.length ∧ radius + 2 ≤ s2.length) :
    _msDtw E m ts1 ts2 radius (pre ++ bad :: post) = .error .invalidArgument := by
  induction pre with
  | nil => simp [detail._msDtw, hbad]
  | cons p pre ih =>
    obtain ⟨hw, hd, s1, s2, hs1, hs2, hl1, hl2⟩ := hpre p (List.mem_cons_self _ _)
    have ih' := ih (fun q hq => hpre q (List.mem_cons_of_mem _ hq))
    have hsz := toSizeT_of_int (radius + 2) hr0 hr1
    have hn1 : ¬ (s1.length < toSizeT (radius + 2)) := by omega
    have hn2 : ¬ (s2.length < toSizeT (radius + 2)) := by omega
    have hvalid : ¬ (p.window < 1 ∨ p.downsample < 2) := by omega
    obtain ⟨next, hnext⟩ : ∃ next, (pre ++ bad :: post).head? = some next := by
      cases pre <;> simp
    have hne : ¬ (pre ++ bad :: post = []) := by simp
    show _msDtw E m ts1 ts2 radius (p :: (pre ++ bad :: post)) = _
    simp only [detail._msDtw, if_neg hvalid, hs1, hs2, hn1, hn2, false_or, if_neg hne, hnext,
      ih']

/-- C3 fails as stated: with radius 1 and the list `[(3, 2), (1, 1)]`, whose
second entry has downsample 1, both two-vector series shrink to one vector,
fewer than `radius + 2`, so the recursion stops at the first level and never
examines the second entry.  `msDtw` then fails only if the engine does. -/
theorem msDtw_invalid_entry_counterexample :
    ¬ ∀ (E : Engine ℚ) (m : Libm ℚ),
      dtw.msDtw E m [[Dbl.fin 1], [Dbl.fin 1]] [[Dbl.fin 1], [Dbl.fin 1]] 1
        [{ window := 3, downsample := 2 }, { window := 1, downsample := 1 }] =
      .error .invalidArgument := by
  intro h
  have h' := h echoEngine ratLibm
  have hval : dtw.msDtw echoEngine ratLibm [[Dbl.fin 1], [Dbl.fin 1]]
      [[Dbl.fin 1], [Dbl.fin 1]] 1
      [{ window := 3, downsample := 2 }, { window := 1, downsample := 1 }] =
      .ok { path := [{ i := 0, j := 0 }, { i := 0, j := 1 }, { i := 1, j := 0 },
        { i := 1, j := 1 }], cost := Dbl.fin 0 } := by rfl
  rw [hval] at h'
  exact absurd h' (by simp)

/-- C3, amended: for `radius >= 1`, if the parameter list holds an entry with
smoothing window < 1 or downsample factor < 2, and every entry before it is
valid and summarizes both series to at least `radius + 2` vectors (so that
the recursion reaches the invalid entry), `msDtw` fails with the
invalid-argument error.  This covers an invalid front entry. -/
theorem msDtw_invalid_reached (E : Engine K) (m : Libm K) (ts1 ts2 : SpeechTs K)
    (radius : Int) (hr : 1 ≤ radius) (hint : radius + 2 < 2 ^ 31)
    (pre : List CentParam) (bad : CentParam) (post : List CentParam)
    (hbad : bad.window < 1 ∨ bad.downsample < 2)
    (hpre : ∀ p ∈ pre, 1 ≤ p.window ∧ 2 ≤ p.downsample ∧
      ∃ s1 s2, computeCENT m ts1 p.window p.downsample = .ok s1 ∧
        computeCENT m ts2 p.window p.downsample = .ok s2 ∧
        radius + 2 ≤ s1.length ∧ radius + 2 ≤ s2.length) :
    dtw.msDtw E m ts1 ts2 radius (pre ++ bad :: post) = .error .invalidArgument := by
  obtain ⟨front, hfront⟩ : ∃ front, (pre ++ bad :: post).head? = some front := by
    cases pre <;> simp
  simp only [dtw.msDtw, if_neg (not_lt.mpr hr), hfront,
    recursiveStep_invalid_reached E m ts1 ts2 radius (by omega) hint pre bad post hbad hpre]

theorem msDtw_invalid_reached_witness :
    (1 : Int) ≤ 1 ∧ (1 : Int) + 2 < 2 ^ 31 ∧
    ((1 : Int) < 1 ∨ (1 : Int) < 2) ∧
    (∀ p ∈ [({ window := 3, downsample := 2 } : CentParam)], 1 ≤ p.window ∧ 2 ≤ p.downsample ∧
      ∃ s1 s2,
        computeCENT ratLibm (List.replicate 6 [Dbl.fin 1]) p.window p.downsample = .ok s1 ∧
        computeCENT ratLibm (List.replicate 6 [Dbl.fin 1]) p.window p.downsample = .ok s2 ∧
        (1 : Int) + 2 ≤ s1.length ∧ (1 : Int) + 2 ≤ s2.length) ∧
    dtw.msDtw echoEngine ratLibm (List.replicate 6 [Dbl.fin 1]) (List.replicate 6 [Dbl.fin 1]) 1
      ([{ window := 3, downsample := 2 }] ++ { window := 1, downsample := 1 } :: []) =
      .error .invalidArgument :=
  have hpre : ∀ p ∈ [({ window := 3, downsample := 2 } : CentParam)],
      1 ≤ p.window ∧ 2 ≤ p.downsample ∧
      ∃ s1 s2,
        computeCENT ratLibm (List.replicate 6 [Dbl.fin 1]) p.window p.downsample = .ok s1 ∧
        computeCENT ratLibm (List.replicate 6 [Dbl.fin 1]) p.window p.downsample = .ok s2 ∧
        (1 : Int) + 2 ≤ s1.length ∧ (1 : Int) + 2 ≤ s2.length := by
    intro p hp
    rw [List.mem_singleton] at hp
    subst hp
    exact ⟨by decide, by decide, _, _, rfl, rfl, by decide, by decide⟩
  ⟨by decide, by decide, Or.inr (by decide), hpre,
    msDtw_invalid_reached echoEngine ratLibm _ _ 1 (by decide) (by decide)
      [{ window := 3, downsample := 2 }] { window := 1, downsample := 1 } []
      (Or.inr (by decide)) hpre⟩

end Validation

section UnitNorm

open detail

variable {K : Type} [LinearOrderedField K]

theorem quantizeFeatureVector_fin (vec : SpeechTsElem K) :
    ∃ l : List K, quantizeFeatureVector vec = l.map Dbl.fin := by
  rw [quantizeFeatureVector_eq_map]
  induction vec with
  | nil => exact ⟨[], rfl⟩
  | cons x xs ih =>
    obtain ⟨l, hl⟩ := ih
    rcases quantizeElem_cases x with h | h | h | h | h
    · exact ⟨0 :: l, by simp [h, hl]⟩
    · exact ⟨1 :: l, by simp [h, hl]⟩
    · exact ⟨2 :: l, by simp [h, hl]⟩
    · exact ⟨3 :: l, by simp [h, hl]⟩
    · exact ⟨4 :: l, by simp [h, hl]⟩

theorem hannValue_fin (m : Libm K) (window i : Int) (hw : window ≠ 1) :
    ∃ h : K, hannValue m window i = Dbl.fin h := by
  have hne : ((window - 1 : Int) : K) ≠ 0 := by
    rw [Ne, Int.cast_eq_zero]
    omega
  have h2 : (2 : K) ≠ 0 := two_ne_zero
  refine ⟨(1 - m.cos (2 * m.pi * (i : K) / ((window - 1 : Int) : K))) / 2, ?_⟩
  simp only [detail.hannValue, Dbl.div, if_neg hne, Dbl.cos, Dbl.sub, if_neg h2]

theorem zipWith_fin (h : K) (c f : List K) :
    List.zipWith (fun (x y : Dbl K) => x.add ((Dbl.fin h).mul y)) (c.map Dbl.fin)
        (f.map Dbl.fin) =
      (List.zipWith (fun x y => x + h * y) c f).map Dbl.fin := by
  induction c generalizing f with
  | nil => simp
  | cons x xs ih =>
    cases f with
    | nil => simp
    | cons y ys =>
      simp only [List.map_cons, List.zipWith_cons_cons, ih]
      rfl

/-- With a window other than 1 the accumulated vector has finite components
only. -/
theorem accumulate_fin (m : Libm K) (quant_ts : SpeechTs K) (window downsample half_window i : Int)
    (hw : window ≠ 1) (hq : ∀ v ∈ quant_ts, ∃ l : List K, v = l.map Dbl.fin) (js : List Int)
    (cent_i acc : SpeechTsElem K) (hc : ∃ l : List K, cent_i = l.map Dbl.fin)
    (hacc : accumulate m quant_ts window downsample half_window i js cent_i = .ok acc) :
    ∃ l : List K, acc = l.map Dbl.fin := by
  induction js generalizing cent_i with
  | nil =>
    simp only [detail.accumulate] at hacc
    injection hacc with hacc
    subst hacc
    exact hc
  | cons j js ih =>
    simp only [detail.accumulate] at hacc
    split_ifs at hacc with hn
    · cases hf : quant_ts[(i * downsample + j - half_window).toNat]? with
      | none => simp [hf] at hacc
      | some features =>
        rw [hf] at hacc
        obtain ⟨fl, rfl⟩ := hq features (List.getElem?_mem hf)
        obtain ⟨cl, rfl⟩ := hc
        obtain ⟨h, hh⟩ := hannValue_fin m window j hw
        simp only [detail.addScaled, hh] at hacc
        split_ifs at hacc with hlen
        simp only [zipWith_fin] at hacc
        exact ih _ ⟨_, rfl⟩ hacc
    · exact ih cent_i hc hacc

theorem sumSquares_fin_aux (l : List K) (c : K) :
    List.foldl (fun (sum elem : Dbl K) => sum.add (elem.mul elem)) (Dbl.fin c)
        (l.map Dbl.fin) = Dbl.fin (c + (l.map fun a => a * a).sum) := by
  induction l generalizing c with
  | nil => simp
  | cons a l ih =>
    have hstep : (Dbl.fin c).add ((Dbl.fin a).mul (Dbl.fin a)) = Dbl.fin (c + a * a) := rfl
    simp only [List.map_cons, List.foldl_cons, List.sum_cons, hstep, ih, add_assoc]

theorem sumSquares_fin (l : List K) :
    sumSquares (l.map Dbl.fin) = Dbl.fin ((l.map fun a => a * a).sum) := by
  simp [detail.sumSquares, sumSquares_fin_aux]

theorem sum_squares_nonneg (l : List K) : 0 ≤ (l.map fun a => a * a).sum := by
  induction l with
  | nil => simp
  | cons a l ih =>
    simp only [List.map_cons, List.sum_cons]
    exact add_nonneg (mul_self_nonneg a) ih

theorem sum_squares_pos (l : List K) (h : ∃ a ∈ l, a ≠ 0) : 0 < (l.map fun a => a * a).sum := by
  induction l with
  | nil => simp at h
  | cons a l ih =>
    simp only [List.map_cons, List.sum_cons]
    obtain ⟨b, hb, hb0⟩ := h
    rcases List.mem_cons.mp hb with rfl | hb
    · exact add_pos_of_pos_of_nonneg (mul_self_pos.mpr hb0) (sum_squares_nonneg l)
    · exact add_pos_of_nonneg_of_pos (mul_self_nonneg a) (ih ⟨b, hb, hb0⟩)

theorem sum_squares_div (l : List K) (r : K) :
    ((l.map fun a => a / r).map fun a => a * a).sum = (l.map fun a => a * a).sum / (r * r) := by
  induction l with
  | nil => simp
  | cons a l ih =>
    simp only [List.map_cons, List.sum_cons, ih]
    rw [add_div, div_mul_div_comm]

/-- Normalization with an exact square root: a finite vector that is not the
zero vector is mapped to a vector whose squares sum to 1. -/
theorem normalizeFeatureVector_unit (m : Libm K)
    (hsqrt : ∀ x : K, 0 ≤ x → m.sqrt x * m.sqrt x = x) (l : List K)
    (hnz : ∃ a ∈ l, a ≠ 0) :
    sumSquares (normalizeFeatureVector m (l.map Dbl.fin)) = Dbl.fin 1 := by
  have hpos := sum_squares_pos l hnz
  have hsq := hsqrt _ (le_of_lt hpos)
  have hr : m.sqrt ((l.map fun a => a * a).sum) ≠ 0 := by
    intro h0
    rw [h0, mul_zero] at hsq
    exact absurd hsq.symm (ne_of_gt hpos)
  have hnorm : normalizeFeatureVector m (l.map Dbl.fin) =
      (l.map fun a => a / m.sqrt ((l.map fun a => a * a).sum)).map Dbl.fin := by
    simp [detail.normalizeFeatureVector, sumSquares_fin, Dbl.sqrt, not_lt.mpr (le_of_lt hpos),
      Dbl.div, hr]
  rw [hnorm, sumSquares_fin, sum_squares_div, hsq, div_self (ne_of_gt hpos)]

/-- Every output vector of `computeCENT` is the normalized accumulation of
its row. -/
theorem centRows_getElem? (m : Libm K) (quant_ts : SpeechTs K)
    (window downsample half_window : Int) (feature_count : Nat) (rows : List Int)
    (cent : SpeechTs K)
    (h : centRows m quant_ts window downsample half_window feature_count rows = .ok cent)
    (k : Nat) (row : SpeechTsElem K) (hk : cent[k]? = some row) :
    ∃ i, rows[k]? = some i ∧
      centRow m quant_ts window downsample half_window feature_count i = .ok row := by
  induction rows generalizing cent k with
  | nil =>
    simp only [detail.centRows] at h
    injection h with h
    subst h
    simp at hk
  | cons i rows ih =>
    simp only [detail.centRows] at h
    cases hrow : centRow m quant_ts window downsample half_window feature_count i with
    | error e => simp [hrow] at h
    | ok r =>
      cases hrest : centRows m quant_ts window downsample half_window feature_count rows with
      | error e => simp [hrow, hrest] at h
      | ok rs =>
        simp only [hrow, hrest] at h
        injection h with h
        subst h
        cases k with
        | zero =>
          simp only [List.getElem?_cons_zero, Option.some.injEq] at hk
          subst hk
          exact ⟨i, by simp, hrow⟩
        | succ k =>
          simp only [List.getElem?_cons_succ] at hk
          obtain ⟨i', hi', hrow'⟩ := ih rs hrest k hk
          exact ⟨i', by simpa using hi', hrow'⟩

/-- Away from the window-1 degeneracy the summarizer normalizes as intended:
with an exact square root and a window other than 1, every output vector of
`computeCENT` is the normalization of a finite accumulated vector, and has
squares summing to 1 unless that vector is zero. -/
theorem computeCENT_unit_norm (m : Libm K)
    (hsqrt : ∀ x : K, 0 ≤ x → m.sqrt x * m.sqrt x = x)
    (ts : SpeechTs K) (window downsample : Int) (hw : window ≠ 1) (cent : SpeechTs K)
    (h : computeCENT m ts window downsample = .ok cent)
    (k : Nat) (row : SpeechTsElem K) (hk : cent[k]? = some row) :
    ∃ l : List K, row = normalizeFeatureVector m (l.map Dbl.fin) ∧
      ((∃ a ∈ l, a ≠ 0) → sumSquares row = Dbl.fin 1) := by
  unfold detail.computeCENT at h
  by_cases h1 : window < 0
  · simp [h1] at h
  by_cases h2 : downsample = 0
  · simp [h1, h2] at h
  by_cases h3 : downsample < 0
  · cases hq : quantizeFeatures ts <;> simp [h1, h2, h3, hq] at h
  simp only [if_neg h1, if_neg h2, if_neg h3] at h
  cases hq : quantizeFeatures ts with
  | nil => simp [hq] at h
  | cons first rest =>
    simp only [hq] at h
    obtain ⟨i, _, hrow⟩ := centRows_getElem? m _ _ _ _ _ _ cent h k row hk
    simp only [detail.centRow] at hrow
    cases hacc : accumulate m (first :: rest) window downsample (halfWindow window) i
        (forRange 0 window) (List.replicate first.length (Dbl.fin 0)) with
    | error e => simp [hacc] at hrow
    | ok acc =>
      simp only [hacc] at hrow
      injection hrow with hrow
      have hqfin : ∀ v ∈ first :: rest, ∃ l : List K, v = l.map Dbl.fin := by
        intro v hv
        rw [← hq, quantizeFeatures_eq_map, List.mem_map] at hv
        obtain ⟨w, _, rfl⟩ := hv
        exact quantizeFeatureVector_fin w
      obtain ⟨l, hl⟩ := accumulate_fin m (first :: rest) window downsample (halfWindow window) i
        hw hqfin (forRange 0 window) _ acc
        ⟨List.replicate first.length 0, by simp⟩ hacc
      subst hl
      exact ⟨l, hrow.symm, fun hnz => by rw [← hrow]; exact normalizeFeatureVector_unit m hsqrt l hnz⟩

end UnitNorm

section RealNumbers

open detail

/-- The unit-norm property over the real numbers with the real cosine and
square root: the hypothesis on the square root is met. -/
theorem computeCENT_unit_norm_real (ts : SpeechTs ℝ) (window downsample : Int)
    (hw : window ≠ 1) (cent : SpeechTs ℝ)
    (h : computeCENT { pi := Real.pi, cos := Real.cos, sqrt := Real.sqrt } ts window downsample
      = .ok cent)
    (k : Nat) (row : SpeechTsElem ℝ) (hk : cent[k]? = some row) :
    ∃ l : List ℝ,
      row = normalizeFeatureVector { pi := Real.pi, cos := Real.cos, sqrt := Real.sqrt }
        (l.map Dbl.fin) ∧
      ((∃ a ∈ l, a ≠ 0) → sumSquares row = Dbl.fin 1) :=
  computeCENT_unit_norm _ (fun _ hx => Real.mul_self_sqrt hx) ts window downsample hw cent h k
    row hk

end RealNumbers

section FloatCasts

open detail

theorem leadingBit_le (fuel n k : Nat) (h : n < 2 ^ (k + 1)) : leadingBit fuel n ≤ k := by
  induction fuel generalizing n k with
  | zero => simp [leadingBit]
  | succ f ih =>
    simp only [leadingBit]
    split_ifs with h2
    · omega
    · cases k with
      | zero => simp at h; omega
      | succ k =>
        have : n / 2 < 2 ^ (k + 1) := by
          rw [Nat.div_lt_iff_lt_mul (by norm_num)]
          rw [pow_succ] at h
          exact h
        have := ih (n / 2) k this
        omega

theorem pow_leadingBit_le (fuel n : Nat) (h : 0 < n) : 2 ^ leadingBit fuel n ≤ n := by
  induction fuel generalizing n with
  | zero => simp [leadingBit]; omega
  | succ f ih =>
    simp only [leadingBit]
    split_ifs with h2
    · simp; omega
    · have := ih (n / 2) (by omega)
      rw [pow_succ]
      omega

theorem lt_pow_leadingBit (fuel n : Nat) (h : n < 2 ^ fuel) :
    n < 2 ^ (leadingBit fuel n + 1) := by
  induction fuel generalizing n with
  | zero => simp at h; simp [leadingBit, h]
  | succ f ih =>
    simp only [leadingBit]
    split_ifs with h2
    · simpa using h2
    · have hlt : n / 2 < 2 ^ f := by
        rw [Nat.div_lt_iff_lt_mul (by norm_num)]
        rw [pow_succ] at h
        exact h
      have := ih (n / 2) hlt
      rw [pow_succ]
      omega

theorem toFloat_small (n : Nat) (h : n < 2 ^ 24) : toFloat n = n := by
  have : ilog2 n ≤ 23 := leadingBit_le 64 n 23 h
  simp only [toFloat]
  rw [if_pos (by omega)]

theorem roundHalfEven_ge (a b : Nat) : a / b ≤ roundHalfEven a b := by
  simp only [roundHalfEven]
  split_ifs <;> omega

theorem roundHalfEven_le (a b : Nat) : roundHalfEven a b ≤ a / b + 1 := by
  simp only [roundHalfEven]
  split_ifs <;> omega

theorem roundHalfEven_up (a b : Nat) (h : roundHalfEven a b = a / b + 1) : b ≤ 2 * (a % b) := by
  simp only [roundHalfEven] at h
  split_ifs at h <;> omega

/-- Rounding a quotient to `s` binary places and flooring gives the integer
quotient unless the divisor reaches `2 ^ (s + 1)`. -/
theorem round_scaled_floor (a b s : Nat) (hb : 0 < b) (hs : b < 2 ^ (s + 1)) :
    roundHalfEven (a * 2 ^ s) b / 2 ^ s = a / b := by
  have hp : 0 < 2 ^ s := Nat.pow_pos (by norm_num)
  have hmod := Nat.div_add_mod a b
  have hlt := Nat.mod_lt a hb
  set Q := a / b with hQ
  set r0 := a % b with hr0
  have hA := Nat.div_add_mod (a * 2 ^ s) b
  have hAlt := Nat.mod_lt (a * 2 ^ s) hb
  set q := a * 2 ^ s / b with hq
  set r := a * 2 ^ s % b with hr
  -- the scaled quotient lies between `Q * 2 ^ s` and `(Q + 1) * 2 ^ s - 1`
  have hlow : Q * 2 ^ s ≤ q := by
    rw [hq, Nat.le_div_iff_mul_le hb]
    calc Q * 2 ^ s * b = (b * Q) * 2 ^ s := by ring
      _ ≤ a * 2 ^ s := Nat.mul_le_mul_right _ (by omega)
  have hhigh : q < (Q + 1) * 2 ^ s := by
    rw [hq, Nat.div_lt_iff_lt_mul hb]
    calc a * 2 ^ s < (b * (Q + 1)) * 2 ^ s := Nat.mul_lt_mul_of_pos_right (by
            rw [Nat.mul_succ]; omega) hp
      _ = (Q + 1) * 2 ^ s * b := by ring
  have hge := roundHalfEven_ge (a * 2 ^ s) b
  have hle := roundHalfEven_le (a * 2 ^ s) b
  rw [← hq] at hge hle
  have hR : roundHalfEven (a * 2 ^ s) b < (Q + 1) * 2 ^ s := by
    by_contra hcon
    have hcon' : (Q + 1) * 2 ^ s ≤ roundHalfEven (a * 2 ^ s) b := not_lt.mp hcon
    have heq : roundHalfEven (a * 2 ^ s) b = q + 1 := by omega
    have hup := roundHalfEven_up (a * 2 ^ s) b (by rw [heq])
    rw [← hr] at hup
    have hq1 : q + 1 = (Q + 1) * 2 ^ s := by omega
    -- `b * q + r = a * 2 ^ s` and `a = b * Q + r0`
    have e1 : b * (q + 1) = b * ((Q + 1) * 2 ^ s) := by rw [hq1]
    have e2 : a * 2 ^ s = (b * Q + r0) * 2 ^ s := by rw [hmod]
    have e3 : (b - r0) * 2 ^ s + r = b := by
      have hbr : r0 ≤ b := le_of_lt hlt
      zify [hbr] at *
      nlinarith
    have e4 : 1 * 2 ^ s ≤ (b - r0) * 2 ^ s := Nat.mul_le_mul_right _ (by omega)
    have e5 : 2 ^ (s + 1) = 2 * 2 ^ s := by rw [pow_succ]; ring
    omega
  apply Nat.div_eq_of_lt_le
  · calc Q * 2 ^ s ≤ q := hlow
      _ ≤ _ := hge
  · exact hR

theorem floor_at_exponent (a b : Nat) (e : Int) (hb : 0 < b) (ha : a < 2 ^ 24)
    (hb24 : b < 2 ^ 24) (he : e ≤ 23) (hexp : 0 ≤ e → b * 2 ^ e.toNat ≤ a) :
    roundHalfEven (a * 2 ^ (23 - e).toNat) (b * 2 ^ (e - 23).toNat) * 2 ^ (e - 23).toNat
      / 2 ^ (23 - e).toNat = a / b := by
  have ht : (e - 23).toNat = 0 := by omega
  rw [ht, pow_zero, mul_one, mul_one]
  apply round_scaled_floor a b _ hb
  by_cases h0 : 0 ≤ e
  · have hk := hexp h0
    obtain ⟨k, rfl⟩ := Int.eq_ofNat_of_zero_le h0
    have hk23 : k ≤ 23 := by omega
    have hs : (23 - (k : Int)).toNat = 23 - k := by omega
    rw [hs]
    simp only [Int.toNat_ofNat] at hk
    have hlt : b * 2 ^ k < 2 ^ (23 - k + 1) * 2 ^ k := by
      rw [← pow_add]
      have : 23 - k + 1 + k = 24 := by omega
      rw [this]
      omega
    exact Nat.lt_of_mul_lt_mul_right hlt
  · have hs : 24 ≤ (23 - e).toNat := by omega
    calc b < 2 ^ 24 := hb24
      _ ≤ 2 ^ ((23 - e).toNat + 1) := Nat.pow_le_pow_right (by norm_num) (by omega)

/-- Below `2 ^ 24` the single-precision quotient floors to the integer
quotient. -/
theorem floatDivFloor_small (a b : Nat) (hb : 0 < b) (ha : a < 2 ^ 24) (hb24 : b < 2 ^ 24) :
    floatDivFloor a b = a / b := by
  unfold floatDivFloor
  by_cases ha0 : a = 0
  · simp [ha0]
  rw [if_neg ha0]
  have hla : ilog2 a ≤ 23 := leadingBit_le 64 a 23 ha
  have h2la : 2 ^ ilog2 a ≤ a := pow_leadingBit_le 64 a (by omega)
  have hblt : b < 2 ^ (ilog2 b + 1) := lt_pow_leadingBit 64 b (by omega)
  simp only []
  split_ifs with hc
  · apply floor_at_exponent a b _ hb ha hb24 (by omega)
    intro h0
    have : (-((ilog2 a : Int) - (ilog2 b : Int))).toNat = 0 := by omega
    rw [this, pow_zero, mul_one] at hc
    exact hc
  · apply floor_at_exponent a b _ hb ha hb24 (by omega)
    intro h0
    have hk : ((ilog2 a : Int) - (ilog2 b : Int) - 1).toNat = ilog2 a - ilog2 b - 1 := by omega
    rw [hk]
    have hlt : b * 2 ^ (ilog2 a - ilog2 b - 1) < 2 ^ (ilog2 b + 1) * 2 ^ (ilog2 a - ilog2 b - 1) :=
      Nat.mul_lt_mul_of_pos_right hblt (Nat.pow_pos (by norm_num))
    rw [← pow_add] at hlt
    have : ilog2 b + 1 + (ilog2 a - ilog2 b - 1) = ilog2 a := by omega
    rw [this] at hlt
    omega

/-- Below the precision of `float` the output length is the integer quotient:
on a non-empty series of uniform dimensionality with fewer than `2 ^ 24`
vectors, with `L >= 0` and `1 <= d < 2 ^ 24`, `computeCENT` returns
`floor(|ts| / d)` vectors of the dimensionality of the series. -/
theorem computeCENT_length_small {K : Type} [LinearOrderedField K] (m : Libm K)
    (ts : SpeechTs K) (window downsample : Int)
    (hne : ts ≠ []) (huni : ∀ v ∈ ts, ∀ w ∈ ts, v.length = w.length)
    (hw : 0 ≤ window) (hd : 0 < downsample) (hd24 : downsample < 2 ^ 24)
    (hlen : ts.length < 2 ^ 24) :
    ∃ cent, computeCENT m ts window downsample = .ok cent ∧
      cent.length = ts.length / downsample.toNat ∧
      ∀ v ∈ cent, ∀ w ∈ ts, v.length = w.length := by
  obtain ⟨cent, hcent, hcl, hcv⟩ := computeCENT_ok m ts window downsample hne huni hw hd
  refine ⟨cent, hcent, ?_, hcv⟩
  have hdn : downsample.toNat < 2 ^ 24 := by omega
  simp only [detail.centSize, toFloat_small _ hlen, toFloat_small _ hdn,
    floatDivFloor_small _ _ (by omega : 0 < downsample.toNat) hlen hdn] at hcl
  exact_mod_cast hcl

end FloatCasts

section RecursiveStep

open detail

/-- C12: `reduceSpeechTs` fails, with the invalid-argument error, on every
series and every pair of integer parameters; it never returns a series. -/
theorem reduceSpeechTs_fails {K : Type} (ts : SpeechTs K) (w downsample : Int) :
    dtw.reduceSpeechTs ts w downsample = .error .invalidArgument ∧
    ∀ reduced : SpeechTs K, dtw.reduceSpeechTs ts w downsample ≠ .ok reduced := by
  refine ⟨rfl, ?_⟩
  intro reduced h
  simp [dtw.reduceSpeechTs] at h

variable {K : Type} [LinearOrderedField K]

/-- C16: on a non-empty parameter list whose front entry has smoothing window
< 1 or downsample factor < 2, `_msDtw` fails with the invalid-argument error
for every pair of series (empty ones included), every radius, every engine and
every math library: no summarization can change the outcome, so none precedes
the check. -/
theorem recursiveStep_invalid_front (E : Engine K) (m : Libm K) (ts1 ts2 : SpeechTs K)
    (radius : Int) (front : CentParam) (rest : List CentParam)
    (h : front.window < 1 ∨ front.downsample < 2) :
    _msDtw E m ts1 ts2 radius (front :: rest) = .error .invalidArgument := by
  simp [detail._msDtw, h]

theorem recursiveStep_invalid_front_witness :
    ((0 : Int) < 1 ∨ (2 : Int) < 2) ∧
    _msDtw failingEngine ratLibm [] [] 5
      ({ window := 0, downsample := 2 } :: [{ window := 3, downsample := 4 }])
      = .error .invalidArgument :=
  ⟨Or.inl (by decide),
    recursiveStep_invalid_front failingEngine ratLibm [] [] 5 { window := 0, downsample := 2 }
      [{ window := 3, downsample := 4 }] (Or.inl (by decide))⟩

/-- C13: terminal case of the recursive step.  For a valid front entry
`(L, d)` whose summaries `shrunk1`, `shrunk2` of the two series exist, if one
of them has fewer than `radius + 2` vectors, or no entry follows, `_msDtw`
returns exactly what the full-grid engine returns on `shrunk1`, `shrunk2`;
under the size condition the result is the same for every tail of the list.
The radius is an `int` with `radius + 2` in range. -/
theorem recursiveStep_terminal (E : Engine K) (m : Libm K) (ts1 ts2 : SpeechTs K)
    (radius : Int) (hint : radius + 2 < 2 ^ 31) (front : CentParam) (rest : List CentParam)
    (hw : 1 ≤ front.window) (hd : 2 ≤ front.downsample) (shrunk1 shrunk2 : SpeechTs K)
    (h1 : computeCENT m ts1 front.window front.downsample = .ok shrunk1)
    (h2 : computeCENT m ts2 front.window front.downsample = .ok shrunk2)
    (hterm : (shrunk1.length : Int) < radius + 2 ∨ (shrunk2.length : Int) < radius + 2 ∨
      rest = []) :
    _msDtw E m ts1 ts2 radius (front :: rest) = E.full shrunk1 shrunk2 ∧
    (((shrunk1.length : Int) < radius + 2 ∨ (shrunk2.length : Int) < radius + 2) →
      ∀ other : List CentParam,
        _msDtw E m ts1 ts2 radius (front :: other) = _msDtw E m ts1 ts2 radius (front :: rest)) := by
  have hvalid : ¬ (front.window < 1 ∨ front.downsample < 2) := by omega
  have hsize : ((shrunk1.length : Int) < radius + 2 ∨ (shrunk2.length : Int) < radius + 2) →
      (shrunk1.length < toSizeT (radius + 2) ∨ shrunk2.length < toSizeT (radius + 2)) := by
    intro hs
    have h0 : 0 ≤ radius + 2 := by omega
    have hsz := toSizeT_of_int (radius + 2) h0 hint
    omega
  have hfull : ∀ tail : List CentParam,
      (shrunk1.length < toSizeT (radius + 2) ∨ shrunk2.length < toSizeT (radius + 2) ∨
        tail = []) →
      _msDtw E m ts1 ts2 radius (front :: tail) = E.full shrunk1 shrunk2 := by
    intro tail hc
    simp only [detail._msDtw, if_neg hvalid, h1, h2, if_pos hc]
  refine ⟨?_, ?_⟩
  · apply hfull
    rcases hterm with h | h | h
    · rcases hsize (Or.inl h) with h' | h'
      · exact Or.inl h'
      · exact Or.inr (Or.inl h')
    · rcases hsize (Or.inr h) with h' | h'
      · exact Or.inl h'
      · exact Or.inr (Or.inl h')
    · exact Or.inr (Or.inr h)
  · intro hs other
    have hc : ∀ tail : List CentParam,
        shrunk1.length < toSizeT (radius + 2) ∨ shrunk2.length < toSizeT (radius + 2) ∨
          tail = [] := by
      intro tail
      rcases hsize hs with h' | h'
      · exact Or.inl h'
      · exact Or.inr (Or.inl h')
    rw [hfull other (hc other), hfull rest (hc rest)]

theorem recursiveStep_terminal_witness :
    (1 : Int) + 2 < 2 ^ 31 ∧ (1 : Int) ≤ 3 ∧ (2 : Int) ≤ 2 ∧
    ∃ shrunk : SpeechTs ℚ,
      computeCENT ratLibm [[Dbl.fin 1], [Dbl.fin 1]] 3 2 = .ok shrunk ∧
      ((shrunk.length : Int) < 1 + 2 ∨ (shrunk.length : Int) < 1 + 2 ∨
        [({ window := 3, downsample := 4 } : CentParam)] = []) ∧
      _msDtw echoEngine ratLibm [[Dbl.fin 1], [Dbl.fin 1]] [[Dbl.fin 1], [Dbl.fin 1]] 1
          ({ window := 3, downsample := 2 } :: [{ window := 3, downsample := 4 }]) =
        echoEngine.full shrunk shrunk :=
  have hc : ∃ shrunk : SpeechTs ℚ,
      computeCENT ratLibm [[Dbl.fin 1], [Dbl.fin 1]] 3 2 = .ok shrunk ∧
      (shrunk.length : Int) < 1 + 2 := ⟨_, rfl, by decide⟩
  Exists.elim hc fun shrunk hs =>
    ⟨by decide, by decide, by decide, shrunk, hs.1, Or.inl hs.2,
      (recursiveStep_terminal echoEngine ratLibm [[Dbl.fin 1], [Dbl.fin 1]]
        [[Dbl.fin 1], [Dbl.fin 1]] 1 (by decide)
        { window := 3, downsample := 2 } [{ window := 3, downsample := 4 }] (by decide)
        (by decide) shrunk shrunk hs.1 hs.1 (Or.inl hs.2)).1⟩

end RecursiveStep

section LogicError

open detail

variable {K : Type} [LinearOrderedField K]

theorem expandResWindow_error_kind (low_res_path : Path) (len1 len2 : Nat)
    (radius upsample : Int) (e : Err)
    (h : expandResWindow low_res_path len1 len2 radius upsample = .error e) :
    e = .outOfRange := by
  by_cases hrows : ∀ x : Nat, x + 1 < len1 →
      ∃ y, marked low_res_path len1 len2 radius upsample x y
  · rw [expandResWindow_ok _ _ _ _ _ hrows] at h
    exact absurd h (by simp)
  · push_neg at hrows
    obtain ⟨x, hx, hno⟩ := hrows
    rw [expandResWindow_error _ _ _ _ _ ⟨x, hx, hno⟩] at h
    injection h with h
    exact h.symm

theorem accumulate_error_kind (m : Libm K) (quant_ts : SpeechTs K)
    (window downsample half_window i : Int) (js : List Int) (cent_i : SpeechTsElem K) (e : Err)
    (h : accumulate m quant_ts window downsample half_window i js cent_i = .error e) :
    e = .outOfRange := by
  induction js generalizing cent_i with
  | nil => simp [detail.accumulate] at h
  | cons j js ih =>
    simp only [detail.accumulate] at h
    split_ifs at h with hn
    · cases hf : quant_ts[(i * downsample + j - half_window).toNat]? with
      | none =>
        rw [hf] at h
        injection h with h
        exact h.symm
      | some features =>
        rw [hf] at h
        cases ha : addScaled (hannValue m window j) features cent_i with
        | error e' =>
          simp only [ha] at h
          injection h with h
          subst h
          simp only [detail.addScaled] at ha
          split_ifs at ha
          injection ha with ha
          exact ha.symm
        | ok acc =>
          simp only [ha] at h
          exact ih acc h
    · exact ih cent_i h

theorem centRows_error_kind (m : Libm K) (quant_ts : SpeechTs K)
    (window downsample half_window : Int) (feature_count : Nat) (rows : List Int) (e : Err)
    (h : centRows m quant_ts window downsample half_window feature_count rows = .error e) :
    e = .outOfRange := by
  induction rows with
  | nil => simp [detail.centRows] at h
  | cons i rows ih =>
    simp only [detail.centRows, detail.centRow] at h
    cases hacc : accumulate m quant_ts window downsample half_window i (forRange 0 window)
        (List.replicate feature_count (Dbl.fin 0)) with
    | error e' =>
      simp only [hacc] at h
      injection h with h
      subst h
      exact accumulate_error_kind m _ _ _ _ _ _ _ _ hacc
    | ok acc =>
      simp only [hacc] at h
      cases hrest : centRows m quant_ts window downsample half_window feature_count rows with
      | error e' =>
        simp only [hrest] at h
        injection h with h
        subst h
        exact ih hrest
      | ok cent => simp [hrest] at h

/-- The summarizer never fails with the logic error. -/
theorem computeCENT_ne_logicError (m : Libm K) (ts : SpeechTs K) (window downsample : Int) :
    computeCENT m ts window downsample ≠ .error .logicError := by
  intro h
  unfold detail.computeCENT at h
  by_cases h1 : window < 0
  · simp [h1] at h
  by_cases h2 : downsample = 0
  · simp [h1, h2] at h
  by_cases h3 : downsample < 0
  · cases hq : quantizeFeatures ts <;> simp [h1, h2, h3, hq] at h
  simp only [if_neg h1, if_neg h2, if_neg h3] at h
  cases hq : quantizeFeatures ts with
  | nil => simp [hq] at h
  | cons first rest =>
    simp only [hq] at h
    have := centRows_error_kind m _ _ _ _ _ _ _ h
    exact absurd this (by decide)

/-- On a non-empty parameter list the recursive step fails with the logic
error only if the engine does. -/
theorem recursiveStep_ne_logicError (E : Engine K) (m : Libm K) (ts1 ts2 : SpeechTs K)
    (radius : Int)
    (hfull : ∀ a b, E.full a b ≠ .error .logicError)
    (hwin : ∀ a b w, E.windowed a b w ≠ .error .logicError)
    (cens_params : List CentParam) (hne : cens_params ≠ []) :
    _msDtw E m ts1 ts2 radius cens_params ≠ .error .logicError := by
  induction cens_params with
  | nil => exact absurd rfl hne
  | cons front rest ih =>
    intro h
    simp only [detail._msDtw] at h
    by_cases hv : front.window < 1 ∨ front.downsample < 2
    · simp [hv] at h
    rw [if_neg hv] at h
    cases h1 : computeCENT m ts1 front.window front.downsample with
    | error e =>
      simp only [h1] at h
      injection h with h
      subst h
      exact computeCENT_ne_logicError m _ _ _ h1
    | ok shrunk1 =>
      simp only [h1] at h
      cases h2 : computeCENT m ts2 front.window front.downsample with
      | error e =>
        simp only [h2] at h
        injection h with h
        subst h
        exact computeCENT_ne_logicError m _ _ _ h2
      | ok shrunk2 =>
        simp only [h2] at h
        by_cases hterm : shrunk1.length < toSizeT (radius + 2) ∨
            shrunk2.length < toSizeT (radius + 2) ∨ rest = []
        · rw [if_pos hterm] at h
          exact hfull _ _ h
        · rw [if_neg hterm] at h
          have hrest : rest ≠ [] := fun hr => hterm (Or.inr (Or.inr hr))
          cases hhead : rest.head? with
          | none =>
            cases rest with
            | nil => exact hrest rfl
            | cons a l => simp at hhead
          | some next =>
            simp only [hhead] at h
            cases hrec : _msDtw E m ts1 ts2 radius rest with
            | error e =>
              simp only [hrec] at h
              injection h with h
              subst h
              exact ih hrest hrec
            | ok low_res =>
              simp only [hrec] at h
              cases hexp : expandResWindow low_res.path shrunk1.length shrunk2.length radius
                  (next.downsample.tdiv front.downsample) with
              | error e =>
                simp only [hexp] at h
                injection h with h
                subst h
                exact absurd (expandResWindow_error_kind _ _ _ _ _ _ hexp) (by decide)
              | ok window =>
                simp only [hexp] at h
                exact hwin _ _ _ h

/-- C17: the logic-error branch of `_msDtw` is not reached from `msDtw`.  Every
failure of a call of `_msDtw` propagates to the result of `msDtw`, and the
logic error has no other source in `fast_dtw.cpp`; so, with an engine that
does not itself raise it, `msDtw` never fails with the logic error, for any
series, radius and parameter list. -/
theorem msDtw_ne_logicError (E : Engine K) (m : Libm K) (ts1 ts2 : SpeechTs K)
    (radius : Int) (cens_params : List CentParam)
    (hfull : ∀ a b, E.full a b ≠ .error .logicError)
    (hwin : ∀ a b w, E.windowed a b w ≠ .error .logicError) :
    dtw.msDtw E m ts1 ts2 radius cens_params ≠ .error .logicError := by
  intro h
  simp only [dtw.msDtw] at h
  by_cases hr : radius < 1
  · simp [hr] at h
  rw [if_neg hr] at h
  cases hhead : cens_params.head? with
  | none =>
    simp only [hhead] at h
    exact hfull _ _ h
  | some front =>
    simp only [hhead] at h
    have hne : cens_params ≠ [] := by
      intro hnil
      simp [hnil] at hhead
    cases hrec : _msDtw E m ts1 ts2 radius cens_params with
    | error e =>
      simp only [hrec] at h
      injection h with h
      subst h
      exact recursiveStep_ne_logicError E m ts1 ts2 radius hfull hwin cens_params hne hrec
    | ok low_res =>
      simp only [hrec] at h
      cases hexp : expandResWindow low_res.path ts1.length ts2.length radius
          front.downsample with
      | error e =>
        simp only [hexp] at h
        injection h with h
        subst h
        exact absurd (expandResWindow_error_kind _ _ _ _ _ _ hexp) (by decide)
      | ok window =>
        simp only [hexp] at h
        exact hwin _ _ _ h

theorem msDtw_ne_logicError_witness :
    (∀ a b, echoEngine.full a b ≠ .error .logicError) ∧
    (∀ a b w, echoEngine.windowed a b w ≠ .error .logicError) ∧
    dtw.msDtw echoEngine ratLibm [[Dbl.fin 1], [Dbl.fin 1]] [[Dbl.fin 1], [Dbl.fin 1]] 1
      [{ window := 3, downsample := 2 }] ≠ .error .logicError :=
  have h1 : ∀ a b, echoEngine.full a b ≠ .error .logicError := by
    intro a b h
    simp [echoEngine] at h
  have h2 : ∀ a b w, echoEngine.windowed a b w ≠ .error .logicError := by
    intro a b w h
    simp [echoEngine] at h
  ⟨h1, h2, msDtw_ne_logicError echoEngine ratLibm _ _ 1 [{ window := 3, downsample := 2 }]
    h1 h2⟩

end LogicError

section Reducer

variable {K : Type} [LinearOrderedField K]

theorem foldl_reduceStep_incomplete (k : Int) (l : List (Dbl K)) (acc : dtw.DoubleTs K)
    (s : Dbl K) (c : Int) (h : c + l.length < k) :
    l.foldl (dtw.reduceStep k) (acc, s, c) = (acc, l.foldl Dbl.add s, c + l.length) := by
  induction l generalizing s c with
  | nil => simp
  | cons x xs ih =>
    simp only [List.length_cons, Nat.cast_add, Nat.cast_one] at h
    have hne : ¬ (c + 1 = k) := by omega
    simp only [List.foldl_cons, dtw.reduceStep, if_neg hne]
    rw [ih (s.add x) (c + 1) (by omega)]
    simp only [List.length_cons, Nat.cast_add, Nat.cast_one]
    congr 2
    ring

theorem foldl_reduceStep_block (k : Int) (l : List (Dbl K)) (acc : dtw.DoubleTs K)
    (s : Dbl K) (c : Int) (hl : l ≠ []) (h : c + l.length = k) :
    l.foldl (dtw.reduceStep k) (acc, s, c) =
      (acc ++ [(l.foldl Dbl.add s).div (Dbl.fin ((k : Int) : K))], Dbl.fin 0, 0) := by
  induction l generalizing s c with
  | nil => exact absurd rfl hl
  | cons x xs ih =>
    simp only [List.length_cons, Nat.cast_add, Nat.cast_one] at h
    cases xs with
    | nil =>
      have hc : c + 1 = k := by simpa using h
      simp [dtw.reduceStep, hc]
    | cons y ys =>
      have hne : ¬ (c + 1 = k) := by
        simp only [List.length_cons, Nat.cast_add, Nat.cast_one] at h
        omega
      simp only [List.foldl_cons, dtw.reduceStep, if_neg hne]
      have := ih (s.add x) (c + 1) (by simp) (by omega)
      simpa [dtw.reduceStep] using this

/-- The reduced series lists, block by block, the sum of each complete run of
`k` scalars divided by `k`. -/
theorem foldl_reduceStep_blocks (k : Nat) (hk : 1 ≤ k) (n : Nat) (ts : dtw.DoubleTs K)
    (hn : ts.length = n) (acc : dtw.DoubleTs K) :
    (ts.foldl (dtw.reduceStep (k : Int)) (acc, Dbl.fin 0, 0)).1 =
      acc ++ (List.range (ts.length / k)).map fun i =>
        (blockSum ((ts.drop (i * k)).take k)).div (Dbl.fin (((k : Nat) : Int) : K)) := by
  induction n using Nat.strong_induction_on generalizing ts acc with
  | _ n ih =>
    by_cases hlt : ts.length < k
    · rw [foldl_reduceStep_incomplete (k : Int) ts acc (Dbl.fin 0) 0 (by omega),
        Nat.div_eq_of_lt hlt]
      simp
    · have hge : k ≤ ts.length := not_lt.mp hlt
      have htake : (ts.take k).length = k := by simp [hge]
      have hsplit : ts = ts.take k ++ ts.drop k := (List.take_append_drop k ts).symm
      have hblock := foldl_reduceStep_block (k : Int) (ts.take k) acc (Dbl.fin 0) 0
        (by
          intro h0
          rw [h0] at htake
          simp at htake
          omega)
        (by rw [htake]; simp)
      have hrec := ih (ts.drop k).length (by rw [List.length_drop]; omega) (ts.drop k) rfl
        (acc ++ [((ts.take k).foldl Dbl.add (Dbl.fin 0)).div (Dbl.fin (((k : Nat) : Int) : K))])
      have hdiv : ts.length / k = (ts.drop k).length / k + 1 := by
        rw [List.length_drop, ← Nat.add_div_right _ (by omega : 0 < k),
          Nat.sub_add_cancel hge]
      conv_lhs => rw [hsplit, List.foldl_append, hblock, hrec]
      rw [hdiv, List.range_succ_eq_map, List.map_cons, List.map_map, List.append_assoc]
      simp only [List.singleton_append, zero_mul, List.drop_zero, blockSum]
      congr 2
      apply List.map_congr_left
      intro i _
      simp only [Function.comp, Nat.succ_eq_add_one, List.drop_drop]
      have : k + i * k = (i + 1) * k := by ring
      rw [this]

theorem blockSum_fin_aux (l : List K) (c : K) :
    (l.map Dbl.fin).foldl Dbl.add (Dbl.fin c) = Dbl.fin (c + l.sum) := by
  induction l generalizing c with
  | nil => simp
  | cons a l ih =>
    have hstep : (Dbl.fin c).add (Dbl.fin a) = Dbl.fin (c + a) := rfl
    simp only [List.map_cons, List.foldl_cons, List.sum_cons, hstep, ih, add_assoc]

theorem blockSum_fin (l : List K) : blockSum (l.map Dbl.fin) = Dbl.fin l.sum := by
  simp [blockSum, blockSum_fin_aux]

/-- C11: for `k >= 1`, `reduceDoubleTs ts k` has `floor(|ts| / k)` elements;
its `i`-th element is the sum `ts[i k] + ... + ts[i k + k - 1]`, added from
left to right, divided by `k` (for finite scalars: their arithmetic mean); the
elements of an incomplete trailing group do not affect the result; and
`reduce([1,2,3,4,5,6], 2) = [1.5, 3.5, 5.5]`, `reduce([1,2,3], 2) = [1.5]`. -/
theorem reduceDoubleTs_blocks (ts : dtw.DoubleTs K) (k : Int) (hk : 1 ≤ k) :
    (dtw.reduceDoubleTs ts k).length = ts.length / k.toNat ∧
    (∀ i : Nat, i < ts.length / k.toNat →
      (dtw.reduceDoubleTs ts k)[i]? =
        some ((blockSum ((ts.drop (i * k.toNat)).take k.toNat)).div (Dbl.fin ((k : Int) : K)))) ∧
    (∀ (l : List K) (i : Nat), ts = l.map Dbl.fin → i < ts.length / k.toNat →
      (dtw.reduceDoubleTs ts k)[i]? =
        some (Dbl.fin (((l.drop (i * k.toNat)).take k.toNat).sum / ((k : Int) : K)))) ∧
    dtw.reduceDoubleTs ts k =
      dtw.reduceDoubleTs (ts.take (ts.length / k.toNat * k.toNat)) k ∧
    dtw.reduceDoubleTs
        ([Dbl.fin 1, Dbl.fin 2, Dbl.fin 3, Dbl.fin 4, Dbl.fin 5, Dbl.fin 6] : dtw.DoubleTs K) 2 =
      [Dbl.fin 1.5, Dbl.fin 3.5, Dbl.fin 5.5] ∧
    dtw.reduceDoubleTs ([Dbl.fin 1, Dbl.fin 2, Dbl.fin 3] : dtw.DoubleTs K) 2 =
      [Dbl.fin 1.5] := by
  obtain ⟨n, rfl⟩ : ∃ n : Nat, k = (n : Int) := ⟨k.toNat, by omega⟩
  have hn : 1 ≤ n := by omega
  simp only [Int.toNat_ofNat]
  have hform : ∀ ts' : dtw.DoubleTs K, dtw.reduceDoubleTs ts' (n : Int) =
      (List.range (ts'.length / n)).map fun i =>
        (blockSum ((ts'.drop (i * n)).take n)).div (Dbl.fin (((n : Nat) : Int) : K)) := by
    intro ts'
    have := foldl_reduceStep_blocks n hn ts'.length ts' rfl []
    simpa [dtw.reduceDoubleTs] using this
  have hel : ∀ i : Nat, i < ts.length / n →
      (dtw.reduceDoubleTs ts (n : Int))[i]? =
        some ((blockSum ((ts.drop (i * n)).take n)).div (Dbl.fin (((n : Nat) : Int) : K))) := by
    intro i hi
    rw [hform, List.getElem?_map, List.getElem?_range hi]
    rfl
  have hn0 : (((n : Nat) : Int) : K) ≠ 0 := by
    have : (0 : K) < (((n : Nat) : Int) : K) := by
      have h1 : (0 : Int) < (n : Int) := by omega
      exact_mod_cast h1
    exact ne_of_gt this
  refine ⟨by rw [hform]; simp, hel, ?_, ?_, ?_, ?_⟩
  · intro l i hl hi
    rw [hel i hi, hl, ← List.map_drop, ← List.map_take, blockSum_fin]
    simp only [Dbl.div, if_neg hn0]
  · rw [hform ts, hform (ts.take (ts.length / n * n))]
    have hlen : (ts.take (ts.length / n * n)).length = ts.length / n * n := by
      rw [List.length_take]
      exact min_eq_left (Nat.div_mul_le_self _ _)
    rw [hlen, Nat.mul_div_cancel _ (by omega : 0 < n)]
    apply List.map_congr_left
    intro i hi
    rw [List.mem_range] at hi
    have hle : i * n + n ≤ ts.length / n * n := by
      have : (i + 1) * n ≤ ts.length / n * n := Nat.mul_le_mul_right n hi
      calc i * n + n = (i + 1) * n := by ring
        _ ≤ _ := this
    rw [List.drop_take, List.take_take, min_eq_left (by omega)]
  · have h15 : (1.5 : K) = 3 / 2 := by norm_num
    have h35 : (3.5 : K) = 7 / 2 := by norm_num
    have h55 : (5.5 : K) = 11 / 2 := by norm_num
    simp [dtw.reduceDoubleTs, dtw.reduceStep, Dbl.add, Dbl.div, h15, h35, h55]
    norm_num
  · have h15 : (1.5 : K) = 3 / 2 := by norm_num
    simp [dtw.reduceDoubleTs, dtw.reduceStep, Dbl.add, Dbl.div, h15]
    norm_num

theorem reduceDoubleTs_blocks_witness :
    (1 : Int) ≤ 2 ∧
    (dtw.reduceDoubleTs ([Dbl.fin 1, Dbl.fin 2, Dbl.fin 3] : dtw.DoubleTs ℚ) 2).length
      = ([Dbl.fin 1, Dbl.fin 2, Dbl.fin 3] : dtw.DoubleTs ℚ).length / (2 : Int).toNat :=
  ⟨by decide, (reduceDoubleTs_blocks [Dbl.fin 1, Dbl.fin 2, Dbl.fin 3] 2 (by decide)).1⟩

end Reducer

section Compaction

open detail

theorem expandResWindow_eq_of_ok (low_res_path : Path) (len1 len2 : Nat)
    (radius upsample : Int) (window : Window)
    (h : expandResWindow low_res_path len1 len2 radius upsample = .ok window) :
    window = (List.range len1).flatMap
      (rowCells (highResExpandPath (lowResExpandPath low_res_path radius) len1 len2 upsample)
        len2) := by
  by_cases hrows : ∀ x : Nat, x + 1 < len1 →
      ∃ y, marked low_res_path len1 len2 radius upsample x y
  · rw [expandResWindow_ok _ _ _ _ _ hrows] at h
    injection h with h
    exact h.symm
  · push_neg at hrows
    obtain ⟨x, hx, hno⟩ := hrows
    rw [expandResWindow_error _ _ _ _ _ ⟨x, hx, hno⟩] at h
    exact absurd h (by simp)

theorem pairwise_countFrom (lo : Int) (n : Nat) :
    List.Pairwise (fun a b => a < b) (countFrom lo n) := by
  induction n generalizing lo with
  | zero => simp [countFrom]
  | succ n ih =>
    simp only [countFrom, List.pairwise_cons]
    refine ⟨fun x hx => ?_, ih (lo + 1)⟩
    rw [mem_countFrom] at hx
    omega

theorem pairwise_rowCells (grid : Grid) (len2 i : Nat) :
    List.Pairwise rowMajorLt (rowCells grid len2 i) := by
  unfold rowCells
  rw [List.pairwise_map]
  have hsub : (firstRun (gridAllowed grid i) (forRange 0 len2)).Sublist (forRange 0 len2) :=
    (List.takeWhile_sublist _).trans (List.dropWhile_sublist _)
  exact (List.Pairwise.sublist hsub (pairwise_countFrom _ _)).imp
    (fun hab => Or.inr ⟨rfl, hab⟩)

theorem mem_rowCells_row (grid : Grid) (len2 i : Nat) (c : DtwPathElement)
    (h : c ∈ rowCells grid len2 i) : c.i = i := by
  unfold rowCells at h
  rw [List.mem_map] at h
  obtain ⟨j, _, rfl⟩ := h
  rfl

/-- C19: the window returned by `expandResWindow` is listed in strictly
increasing row-major order, and so holds no cell twice. -/
theorem expandResWindow_sorted (low_res_path : Path) (len1 len2 : Nat)
    (radius upsample : Int) (window : Window)
    (h : expandResWindow low_res_path len1 len2 radius upsample = .ok window) :
    List.Pairwise rowMajorLt window ∧ window.Nodup := by
  have hsorted : List.Pairwise rowMajorLt window := by
    rw [expandResWindow_eq_of_ok _ _ _ _ _ _ h, List.pairwise_flatMap]
    refine ⟨fun i _ => pairwise_rowCells _ _ i, ?_⟩
    refine (List.pairwise_lt_range len1).imp ?_
    intro i1 i2 hlt x hx y hy
    left
    rw [mem_rowCells_row _ _ _ _ hx, mem_rowCells_row _ _ _ _ hy]
    exact_mod_cast hlt
  refine ⟨hsorted, ?_⟩
  refine hsorted.imp ?_
  intro a b hab heq
  subst heq
  rcases hab with h1 | ⟨_, h2⟩
  · exact lt_irrefl _ h1
  · exact lt_irrefl _ h2

theorem expandResWindow_sorted_witness :
    expandResWindow [{ i := 0, j := 0 }] 2 2 1 2 =
      .ok [{ i := 0, j := 0 }, { i := 0, j := 1 }, { i := 1, j := 0 }, { i := 1, j := 1 }] ∧
    List.Pairwise rowMajorLt
      [{ i := 0, j := 0 }, { i := 0, j := 1 }, { i := 1, j := 0 }, { i := 1, j := 1 }] ∧
    ([{ i := 0, j := 0 }, { i := 0, j := 1 }, { i := 1, j := 0 }, { i := 1, j := 1 }] :
      Window).Nodup :=
  have h : expandResWindow [{ i := 0, j := 0 }] 2 2 1 2 =
      .ok [{ i := 0, j := 0 }, { i := 0, j := 1 }, { i := 1, j := 0 }, { i := 1, j := 1 }] := by
    rfl
  ⟨h, expandResWindow_sorted [{ i := 0, j := 0 }] 2 2 1 2 _ h⟩

/-- C20: the scan of a row does not start at the first allowed column of the
previous row.  For the path `[(0, 2), (1, 0)]`, radius 0, upsample 1 and a
2 × 3 grid, the grid is `[[-1, -1, 1], [1, -1, -1]]`; the scan of row 0
collects `(0, 2)` and leaves `new_start_j = start_j = 0` (line 51 assigns
`start_j`, not `j`), so row 1 is scanned from column 0 and `(1, 0)` enters the
window, left of column 2. -/
theorem expandResWindow_scan_start :
    highResExpandPath (lowResExpandPath [{ i := 0, j := 2 }, { i := 1, j := 0 }] 0) 2 3 1 =
      [[-1, -1, 1], [1, -1, -1]] ∧
    scanRow [[-1, -1, 1], [1, -1, -1]] 0 0 (forRange 0 3) (-1) [] =
      .ok (0, [{ i := 0, j := 2 }]) ∧
    expandResWindow [{ i := 0, j := 2 }, { i := 1, j := 0 }] 2 3 0 1 =
      .ok [{ i := 0, j := 2 }, { i := 1, j := 0 }] := by
  refine ⟨by rfl, by rfl, by rfl⟩

/-- C18: the compaction reads the grid out of range.  For the diagonal path
`[(0,0), (1,1), (2,2), (3,3)]`, radius 1, upsample 1 and a 7 × 7 grid, rows 0
to 4 hold allowed cells and row 5 holds none: its scan ends with
`new_start_j = -1`, so the scan of row 6 starts at `j = -1` and reads
`high_res_expand_path[6][-1]`.  `msDtw` makes this call on two identical series
of 14 vectors with radius 1 and the levels `(3, 2)`, `(3, 3)`: the series
shrink to 7 and to 4 vectors and `upsample = 3 / 2 = 1`. -/
theorem expandResWindow_reads_out_of_range :
    scanRow
        (highResExpandPath
          (lowResExpandPath
            [{ i := 0, j := 0 }, { i := 1, j := 1 }, { i := 2, j := 2 }, { i := 3, j := 3 }] 1)
          7 7 1)
        5 0 (forRange 0 7) (-1) [] = .ok (-1, []) ∧
    (forRange (-1) 7).head? = some (-1) ∧
    readCell
        (highResExpandPath
          (lowResExpandPath
            [{ i := 0, j := 0 }, { i := 1, j := 1 }, { i := 2, j := 2 }, { i := 3, j := 3 }] 1)
          7 7 1)
        6 (-1) = .error .outOfRange ∧
    expandResWindow
        [{ i := 0, j := 0 }, { i := 1, j := 1 }, { i := 2, j := 2 }, { i := 3, j := 3 }]
        7 7 1 1 = .error .outOfRange ∧
    dtw.msDtw diagonalEngine ratLibm (List.replicate 14 [Dbl.fin 1])
        (List.replicate 14 [Dbl.fin 1]) 1
        [{ window := 3, downsample := 2 }, { window := 3, downsample := 3 }] =
      .error .outOfRange := by
  refine ⟨by rfl, by rfl, by rfl, by rfl, by rfl⟩

/-- On an alignment path, when every row of the target grid other than the
last holds a marked cell, the early-terminating scan loses nothing: the window
holds exactly the marked cells. -/
theorem expandResWindow_exact (path : Path) (len1 len2 : Nat) (radius upsample : Int)
    (hpath : isAlignmentPath path) (hU : 1 ≤ upsample)
    (hrows : ∀ x : Nat, x + 1 < len1 → ∃ y, marked path len1 len2 radius upsample x y) :
    ∃ window, expandResWindow path len1 len2 radius upsample = .ok window ∧
      ∀ c : DtwPathElement, c ∈ window ↔ marked path len1 len2 radius upsample c.i c.j := by
  refine ⟨_, expandResWindow_ok path len1 len2 radius upsample hrows, ?_⟩
  intro c
  rw [mem_expandResWindow _ _ _ _ _ _ (expandResWindow_ok path len1 len2 radius upsample hrows)]
  constructor
  · exact fun hc => hc.1
  · intro hc
    exact ⟨hc, fun k1 k2 _ hk2 hk3 hk4 =>
      marked_row_convex hpath len1 len2 radius upsample hU _ k1 k2 _ hk4 hc (le_of_lt hk2) hk3⟩

/-- C14: the scan does not return the marked cells for every alignment path
and target size.  For the path `[(0,0), (1,1)]`, radius 1, upsample 1 and a
5 × 5 grid, rows 0 to 2 hold the marked cells, row 3 holds none, and the scan
of row 4 reads `high_res_expand_path[4][-1]`: no window is returned. -/
theorem expandResWindow_alignment_out_of_range :
    isAlignmentPath [{ i := 0, j := 0 }, { i := 1, j := 1 }] ∧ (0 : Int) ≤ 1 ∧ (1 : Int) ≤ 1 ∧
    marked [{ i := 0, j := 0 }, { i := 1, j := 1 }] 5 5 1 1 0 0 ∧
    expandResWindow [{ i := 0, j := 0 }, { i := 1, j := 1 }] 5 5 1 1 = .error .outOfRange := by
  refine ⟨by simp [isAlignmentPath, pathStep], by decide, by decide, ?_, by rfl⟩
  exact ⟨le_rfl, by decide, le_rfl, by decide, { i := 0, j := 0 }, by simp, 0, 0, 0, 0,
    by decide, by decide, by decide, by decide, le_rfl, by decide, le_rfl, by decide,
    by simp, by simp⟩

end Compaction

section Corners

open detail

theorem path_intermediate_row {path : Path} (h : isAlignmentPath path) (d : DtwPathElement)
    (a b : Nat) (hab : a ≤ b) (hb : b < path.length) (t : Int)
    (h1 : (path.getD a d).i ≤ t) (h2 : t ≤ (path.getD b d).i) :
    ∃ c, a ≤ c ∧ c ≤ b ∧ (path.getD c d).i = t := by
  induction b with
  | zero =>
    have : a = 0 := by omega
    subst this
    exact ⟨0, le_rfl, le_rfl, by omega⟩
  | succ b ih =>
    by_cases hab' : a = b + 1
    · subst hab'
      exact ⟨b + 1, le_rfl, le_rfl, by omega⟩
    · by_cases ht : t ≤ (path.getD b d).i
      · obtain ⟨c, hc1, hc2, hc3⟩ := ih (by omega) (by omega) ht
        exact ⟨c, hc1, by omega, hc3⟩
      · have hs := pathStep_getD h d b hb
        unfold pathStep at hs
        exact ⟨b + 1, by omega, le_rfl, by omega⟩

/-- A window cell exists in every row that holds a marked cell. -/
theorem exists_mem_row (path : Path) (len1 len2 : Nat) (radius upsample : Int)
    (window : Window) (h : expandResWindow path len1 len2 radius upsample = .ok window)
    (x y : Int) (hxy : marked path len1 len2 radius upsample x y) :
    ∃ y0, ({ i := x, j := y0 } : DtwPathElement) ∈ window := by
  obtain ⟨y0, hy0, hmin⟩ := Int.exists_least_of_bdd
    (P := fun y => marked path len1 len2 radius upsample x y)
    ⟨0, fun z hz => hz.2.2.1⟩ ⟨y, hxy⟩
  refine ⟨y0, ?_⟩
  rw [mem_expandResWindow _ _ _ _ _ _ h]
  refine ⟨hy0, fun k1 k2 _ hk2 hk3 hk4 => ?_⟩
  have hk3' : k2 ≤ y0 := hk3
  have := hmin k1 hk4
  omega

theorem div_le_of_lt_mul {x d N : Int} (hd : 0 < d) (h : x < (N + 1) * d) : x / d ≤ N := by
  have := Int.ediv_lt_of_lt_mul hd h
  omega

/-- C15: for series lengths `n1`, `n2`, a downsample factor `d >= 2` with
`n1 >= d` and `n2 >= d`, a radius `>= 1` and an alignment path from `(0, 0)`
to `(floor(n1/d) - 1, floor(n2/d) - 1)`, the call
`expandResWindow(path, n1, n2, radius, d)` of the top-level pass returns a
window that contains `(0, 0)` and `(n1 - 1, n2 - 1)` and has a cell in every
row `0 .. n1 - 1`. -/
theorem expandResWindow_corners (path : Path) (n1 n2 : Nat) (d radius : Int)
    (hd : 2 ≤ d) (hn1 : d ≤ n1) (hn2 : d ≤ n2) (hr : 1 ≤ radius)
    (hpath : isAlignmentPath path)
    (hfirst : path.head? = some { i := 0, j := 0 })
    (hlast : path.getLast? = some { i := (n1 : Int) / d - 1, j := (n2 : Int) / d - 1 }) :
    ∃ window, expandResWindow path n1 n2 radius d = .ok window ∧
      ({ i := 0, j := 0 } : DtwPathElement) ∈ window ∧
      ({ i := (n1 : Int) - 1, j := (n2 : Int) - 1 } : DtwPathElement) ∈ window ∧
      ∀ x : Nat, x < n1 → ∃ y, ({ i := (x : Int), j := y } : DtwPathElement) ∈ window := by
  have hdpos : 0 < d := by omega
  have hdne : d ≠ 0 := by omega
  -- the coarse sizes
  have hN1le := Int.ediv_mul_le (n1 : Int) hdne
  have hN1lt := Int.lt_ediv_add_one_mul_self (n1 : Int) hdpos
  have hN2le := Int.ediv_mul_le (n2 : Int) hdne
  have hN2lt := Int.lt_ediv_add_one_mul_self (n2 : Int) hdpos
  have hN1pos : 1 ≤ (n1 : Int) / d := Int.le_ediv_of_mul_le hdpos (by omega)
  have hN2pos : 1 ≤ (n2 : Int) / d := Int.le_ediv_of_mul_le hdpos (by omega)
  generalize hN1 : (n1 : Int) / d = N1 at *
  generalize hN2 : (n2 : Int) / d = N2 at *
  -- the path by index
  have hne : path ≠ [] := by
    intro h0
    rw [h0] at hfirst
    simp at hfirst
  have hlen : 0 < path.length := List.length_pos.mpr hne
  let dflt : DtwPathElement := { i := 0, j := 0 }
  have hg0 : path.getD 0 dflt = { i := 0, j := 0 } := by
    rw [List.head?_eq_getElem?] at hfirst
    rw [List.getD_eq_getElem?_getD, hfirst]
    rfl
  have hgl : path.getD (path.length - 1) dflt = { i := N1 - 1, j := N2 - 1 } := by
    rw [List.getLast?_eq_getElem?] at hlast
    rw [List.getD_eq_getElem?_getD, hlast]
    rfl
  have hg0i : (path.getD 0 dflt).i = 0 := by rw [hg0]
  have hg0j : (path.getD 0 dflt).j = 0 := by rw [hg0]
  have hgli : (path.getD (path.length - 1) dflt).i = N1 - 1 := by rw [hgl]
  have hglj : (path.getD (path.length - 1) dflt).j = N2 - 1 := by rw [hgl]
  have hlastmem : ({ i := N1 - 1, j := N2 - 1 } : DtwPathElement) ∈ path :=
    (mem_iff_getD path dflt _).mpr ⟨path.length - 1, by omega, hgl⟩
  have hfirstmem : ({ i := 0, j := 0 } : DtwPathElement) ∈ path :=
    (mem_iff_getD path dflt _).mpr ⟨0, hlen, hg0⟩
  -- every row of the target grid holds a marked cell
  have hrow : ∀ x : Int, 0 ≤ x → x < n1 → ∃ y, marked path n1 n2 radius d x y := by
    intro x hx0 hx1
    have hXle := Int.ediv_mul_le x hdne
    have hXlt := Int.lt_ediv_add_one_mul_self x hdpos
    have hX0 : 0 ≤ x / d := Int.ediv_nonneg hx0 (le_of_lt hdpos)
    have hXN : x / d ≤ N1 := div_le_of_lt_mul hdpos (lt_trans hx1 hN1lt)
    have hXeq : x = x / d * d + x % d := by
      have := Int.ediv_add_emod x d
      linarith [mul_comm d (x / d)]
    have hu0 := Int.emod_nonneg x hdne
    have hu1 := Int.emod_lt_of_pos x hdpos
    generalize x / d = X at *
    generalize x % d = u at *
    obtain ⟨c, _, hc2, hc3⟩ := path_intermediate_row hpath dflt 0 (path.length - 1)
      (Nat.zero_le _) (by omega) (min X (N1 - 1))
      (by rw [hg0i]; exact le_min hX0 (by omega))
      (by rw [hgli]; exact min_le_right _ _)
    have hm0 := (path_mono hpath dflt 0 c (Nat.zero_le _) (by omega)).2
    have hm1 := (path_mono hpath dflt c (path.length - 1) hc2 (by omega)).2
    rw [hg0j] at hm0
    rw [hglj] at hm1
    have hqmem : path.getD c dflt ∈ path := (mem_iff_getD path dflt _).mpr ⟨c, by omega, rfl⟩
    have hqi : (path.getD c dflt).i = X ∨ (path.getD c dflt).i + 1 = X := by
      rcases le_total X (N1 - 1) with hle | hle
      · rw [min_eq_left hle] at hc3; exact Or.inl hc3
      · rw [min_eq_right hle] at hc3; omega
    have hy1 : (path.getD c dflt).j * d < n2 := by
      have : (path.getD c dflt).j * d ≤ (N2 - 1) * d :=
        mul_le_mul_of_nonneg_right hm1 (le_of_lt hdpos)
      have e : (N2 - 1) * d = N2 * d - d := by ring
      omega
    have hy0 : 0 ≤ (path.getD c dflt).j * d := mul_nonneg hm0 (le_of_lt hdpos)
    refine ⟨(path.getD c dflt).j * d, hx0, hx1, hy0, hy1, path.getD c dflt, hqmem,
      X - (path.getD c dflt).i, 0, u, 0, by omega, by omega, by omega, by omega,
      hu0, hu1, le_rfl, hdpos, ?_, by simp⟩
    have e : (path.getD c dflt).i + (X - (path.getD c dflt).i) = X := by ring
    rw [e]
    exact hXeq
  have hrows : ∀ x : Nat, x + 1 < n1 → ∃ y, marked path n1 n2 radius d x y :=
    fun x hx => hrow x (by omega) (by omega)
  have hok := expandResWindow_ok path n1 n2 radius d hrows
  refine ⟨_, hok, ?_, ?_, ?_⟩
  · -- the first corner
    rw [mem_expandResWindow _ _ _ _ _ _ hok]
    dsimp only
    refine ⟨⟨le_rfl, by omega, le_rfl, by omega, { i := 0, j := 0 }, hfirstmem, 0, 0, 0, 0,
      by omega, by omega, by omega, by omega, le_rfl, hdpos, le_rfl, hdpos, by simp, by simp⟩,
      ?_⟩
    intro k1 k2 hk1 hk2 hk3 _
    have hk3' : k2 ≤ 0 := hk3
    omega
  · -- the last corner
    have hcorner : marked path n1 n2 radius d ((n1 : Int) - 1) ((n2 : Int) - 1) := by
      have hXle := Int.ediv_mul_le ((n1 : Int) - 1) hdne
      have hXlt := Int.lt_ediv_add_one_mul_self ((n1 : Int) - 1) hdpos
      have hYle := Int.ediv_mul_le ((n2 : Int) - 1) hdne
      have hYlt := Int.lt_ediv_add_one_mul_self ((n2 : Int) - 1) hdpos
      have hX1 : ((n1 : Int) - 1) / d ≤ N1 :=
        div_le_of_lt_mul hdpos (by omega)
      have hX0 : N1 - 1 ≤ ((n1 : Int) - 1) / d :=
        Int.le_ediv_of_mul_le hdpos (by
          have e : (N1 - 1) * d = N1 * d - d := by ring
          omega)
      have hY1 : ((n2 : Int) - 1) / d ≤ N2 :=
        div_le_of_lt_mul hdpos (by omega)
      have hY0 : N2 - 1 ≤ ((n2 : Int) - 1) / d :=
        Int.le_ediv_of_mul_le hdpos (by
          have e : (N2 - 1) * d = N2 * d - d := by ring
          omega)
      have hXeq : (n1 : Int) - 1 = ((n1 : Int) - 1) / d * d + ((n1 : Int) - 1) % d := by
        have := Int.ediv_add_emod ((n1 : Int) - 1) d
        linarith [mul_comm d (((n1 : Int) - 1) / d)]
      have hYeq : (n2 : Int) - 1 = ((n2 : Int) - 1) / d * d + ((n2 : Int) - 1) % d := by
        have := Int.ediv_add_emod ((n2 : Int) - 1) d
        linarith [mul_comm d (((n2 : Int) - 1) / d)]
      have hu0 := Int.emod_nonneg ((n1 : Int) - 1) hdne
      have hu1 := Int.emod_lt_of_pos ((n1 : Int) - 1) hdpos
      have hv0 := Int.emod_nonneg ((n2 : Int) - 1) hdne
      have hv1 := Int.emod_lt_of_pos ((n2 : Int) - 1) hdpos
      generalize ((n1 : Int) - 1) / d = X at *
      generalize ((n2 : Int) - 1) / d = Y at *
      generalize ((n1 : Int) - 1) % d = u at *
      generalize ((n2 : Int) - 1) % d = v at *
      refine ⟨by omega, by omega, by omega, by omega, { i := N1 - 1, j := N2 - 1 }, hlastmem,
        X - (N1 - 1), Y - (N2 - 1), u, v, by omega, by omega, by omega, by omega,
        hu0, hu1, hv0, hv1, ?_, ?_⟩
      · have e : (N1 - 1) + (X - (N1 - 1)) = X := by ring
        simp only [e]
        exact hXeq
      · have e : (N2 - 1) + (Y - (N2 - 1)) = Y := by ring
        simp only [e]
        exact hYeq
    rw [mem_expandResWindow _ _ _ _ _ _ hok]
    exact ⟨hcorner, fun k1 k2 _ hk2 hk3 hk4 =>
      marked_row_convex hpath n1 n2 radius d (by omega) _ k1 k2 _ hk4 hcorner (le_of_lt hk2)
        hk3⟩
  · intro x hx
    obtain ⟨y, hy⟩ := hrow x (by omega) (by omega)
    exact exists_mem_row path n1 n2 radius d _ hok x y hy

theorem expandResWindow_corners_witness :
    (2 : Int) ≤ 2 ∧ (2 : Int) ≤ (4 : Nat) ∧ (1 : Int) ≤ 1 ∧
    isAlignmentPath [{ i := 0, j := 0 }, { i := 1, j := 1 }] ∧
    ([{ i := 0, j := 0 }, { i := 1, j := 1 }] : Path).head? = some { i := 0, j := 0 } ∧
    ([{ i := 0, j := 0 }, { i := 1, j := 1 }] : Path).getLast? =
      some { i := ((4 : Nat) : Int) / 2 - 1, j := ((4 : Nat) : Int) / 2 - 1 } ∧
    ∃ window, expandResWindow [{ i := 0, j := 0 }, { i := 1, j := 1 }] 4 4 1 2 = .ok window ∧
      ({ i := 0, j := 0 } : DtwPathElement) ∈ window ∧
      ({ i := ((4 : Nat) : Int) - 1, j := ((4 : Nat) : Int) - 1 } : DtwPathElement) ∈ window ∧
      ∀ x : Nat, x < 4 → ∃ y, ({ i := (x : Int), j := y } : DtwPathElement) ∈ window :=
  have hp : isAlignmentPath [{ i := 0, j := 0 }, { i := 1, j := 1 }] := by
    simp [isAlignmentPath, pathStep]
  have hl : ([{ i := 0, j := 0 }, { i := 1, j := 1 }] : Path).getLast? =
      some { i := ((4 : Nat) : Int) / 2 - 1, j := ((4 : Nat) : Int) / 2 - 1 } := by
    decide
  ⟨by decide, by decide, by decide, hp, rfl, hl,
    expandResWindow_corners [{ i := 0, j := 0 }, { i := 1, j := 1 }] 4 4 2 1 (by decide)
      (by decide) (by decide) (by decide) hp rfl hl⟩

end Corners

end FastDtw
